import Mathlib

/-!
# Verification of the Solverz differential-transform compiler (`Solverz/sas/sas_alg.py`)

This file shallowly embeds the parts of the differential-transform (DT)
compiler that the checked claims refer to:

* probe evaluation of scalar convolutions (`dConv_s.eval` on concrete
  column matrices), modeled by polynomial coefficient lists over a
  commutative ring of entry values;
* the order/range algebra (`Index`, `Slice` construction);
* the transform rule set (`_dtify` together with `dAdd`, `dMul`, `dSin`,
  `dCos`, `dDerivative`, `dDelta`);
* the driver `dtify` (constant marking, trig substitution, the
  already-transformed check, `k_eqn` packaging);
* the convolution flatten operation (`_eval_expand_func` driven by
  `expand(func=True)`).

Python exceptions are modeled by `Except` with one error constructor per
raise site.  Machine-level distinctions that matter to the code are kept:
a plain Python `int` order and a sympy `Integer` order take different
branches in several places, so the embedding keeps both (`KIdx.pyInt`
vs `KIdx.sInt`).
-/

namespace Solverz

/-! ## Probe evaluation of `dConv_s` (claim C1)

`dConv_s.eval` receives argument matrices (column vectors with one or two
rows).  It multiplies, per argument, the univariate polynomial
`arg[0]` (one row) or `arg[0] + arg[1]*x_` (two or more rows), expands the
product, and returns the whole product if `args[0].shape[0] == 1`,
otherwise the coefficient of `x_`.

Polynomials in the auxiliary indeterminate `x_` are represented by their
coefficient lists (index = degree); the matrix entries live in an
arbitrary commutative ring, mirroring exact symbolic arithmetic. -/

/-- A concrete column-matrix argument of `dConv_s.eval`: an
`ImmutableDenseMatrix` with one populated row (order-0 entry) or two
populated rows (order-0 and order-k entries). -/
inductive Probe (R : Type) where
  | one (a0 : R)
  | two (a0 ak : R)
deriving DecidableEq, Repr

/-- Addition of polynomials represented by coefficient lists. -/
def polyAdd {R : Type} [Add R] : List R → List R → List R
  | [], q => q
  | p, [] => p
  | a :: p, b :: q => (a + b) :: polyAdd p q

/-- Multiplication of a polynomial by a scalar. -/
def polyScale {R : Type} [Mul R] (c : R) (p : List R) : List R :=
  p.map (fun b => c * b)

/-- Multiplication of polynomials represented by coefficient lists. -/
def polyMul {R : Type} [Add R] [Mul R] [Zero R] : List R → List R → List R
  | [], _ => []
  | a :: p, q => polyAdd (polyScale a q) (0 :: polyMul p q)

/-- The coefficient of degree `n` of a polynomial given by its
coefficient list (`0` beyond the list). -/
def coeffAt {R : Type} [Zero R] (p : List R) (n : ℕ) : R :=
  p.getD n 0

/-- The univariate polynomial `a0` or `a0 + ak * x_` formed from a probe
argument (`arg[0] if arg.shape[0] == 1 else arg[0] + arg[1]*x_`). -/
def probePoly {R : Type} : Probe R → List R
  | .one a0 => [a0]
  | .two a0 ak => [a0, ak]

/-- The order-0 entry `arg[0]` of a probe. -/
def Probe.ord0 {R : Type} : Probe R → R
  | .one a0 => a0
  | .two a0 _ => a0

/-- Whether a probe is a one-row matrix. -/
def Probe.isOne {R : Type} : Probe R → Bool
  | .one _ => true
  | .two _ _ => false

/-- The expanded product `temp` of the per-argument polynomials
(`reduce(lambda a, b: a * b, ...)`, a left fold). -/
def probeProd {R : Type} [Add R] [Mul R] [Zero R]
    (a : Probe R) (rest : List (Probe R)) : List R :=
  rest.foldl (fun acc p => polyMul acc (probePoly p)) (probePoly a)

/-- `dConv_s.eval` on a non-empty list of concrete column matrices:
the full expanded product when `args[0].shape[0] == 1`, else the
coefficient of `x_` (returned as a constant polynomial). -/
def dConvSEval {R : Type} [Add R] [Mul R] [Zero R]
    (a : Probe R) (rest : List (Probe R)) : List R :=
  let temp := probeProd a rest
  match a with
  | .one _ => temp
  | .two _ _ => [coeffAt temp 1]

/-- What claim C1 asserts `dConv_s.eval` returns on an argument list that
is not entirely one-row: the coefficient of `x_` in the expanded
product.  (Stated from the specification's words, for comparison with
`dConvSEval`, which is taken from the source.) -/
def dConvSEvalClaimed {R : Type} [Add R] [Mul R] [Zero R]
    (a : Probe R) (rest : List (Probe R)) : List R :=
  if (a :: rest).all Probe.isOne then
    probeProd a rest
  else
    [coeffAt (probeProd a rest) 1]

lemma polyAdd_nil_right {R : Type} [Add R] (p : List R) :
    polyAdd p [] = p := by
  cases p <;> rfl

lemma probeProd_one {R : Type} [CommRing R] (a0 : R) (rest : List (Probe R))
    (h : ∀ p ∈ rest, p.isOne = true) :
    probeProd (Probe.one a0) rest = [rest.foldl (fun c p => c * p.ord0) a0] := by
  induction rest generalizing a0 with
  | nil => rfl
  | cons p rest ih =>
    have hp : p.isOne = true := h p (List.mem_cons_self p rest)
    have hrest : ∀ q ∈ rest, q.isOne = true := fun q hq => h q (List.mem_cons_of_mem p hq)
    cases p with
    | one b0 =>
      have hmul : polyMul (probePoly (Probe.one a0)) (probePoly (Probe.one b0))
          = probePoly (Probe.one (a0 * b0)) := by
        simp [polyMul, probePoly, polyScale, polyAdd]
      have step : probeProd (Probe.one a0) (Probe.one b0 :: rest)
          = probeProd (Probe.one (a0 * b0)) rest := by
        simp [probeProd, List.foldl, hmul]
      rw [step, ih (a0 * b0) hrest]
      rfl
    | two b0 bk => simp [Probe.isOne] at hp

/-- Claim C1, corrected.  `dConv_s.eval` branches on the row count of the
*first* argument only:

* for two two-row probes `[a0, ak]`, `[b0, bk]` the result is the scalar
  `a0*bk + ak*b0` (the coefficient of `x_`), as the claim states;
* whenever the first argument is two-row, the result is the coefficient
  of `x_` in the expanded product;
* whenever the first argument is one-row, the *full expanded product* is
  returned (not the coefficient of `x_`), which equals the plain product
  of the order-0 entries exactly when every argument is one-row. -/
theorem C1_probe_eval_corrected {R : Type} [CommRing R]
    (a0 ak b0 bk : R) (rest : List (Probe R)) (c0 : R)
    (hone : ∀ p ∈ rest, p.isOne = true) :
    dConvSEval (Probe.two a0 ak) [Probe.two b0 bk] = [a0 * bk + ak * b0]
    ∧ dConvSEval (Probe.two a0 ak) rest = [coeffAt (probeProd (Probe.two a0 ak) rest) 1]
    ∧ dConvSEval (Probe.one c0) rest = probeProd (Probe.one c0) rest
    ∧ dConvSEval (Probe.one c0) rest = [rest.foldl (fun c p => c * p.ord0) c0] := by
  refine ⟨?_, rfl, rfl, ?_⟩
  · show [coeffAt (probeProd (Probe.two a0 ak) [Probe.two b0 bk]) 1] = [a0 * bk + ak * b0]
    simp [probeProd, polyMul, probePoly, polyScale, polyAdd, coeffAt]
  · simpa [dConvSEval] using probeProd_one c0 rest hone

/-- The claim as stated is false: for the argument list
`[[2], [3, 5]]` (first argument one-row, second two-row) the code
returns the full product polynomial `6 + 10*x_`, not the coefficient
`10` of `x_` that the claim's rule prescribes. -/
theorem C1_probe_eval_counterexample :
    dConvSEval (Probe.one (2 : ℤ)) [Probe.two 3 5]
      ≠ dConvSEvalClaimed (Probe.one (2 : ℤ)) [Probe.two 3 5] := by
  decide

/-- Witness for `C1_probe_eval_corrected` at `a0=1, ak=2, b0=3, bk=5`,
`rest = [[7]]`, `c0 = 4`. -/
theorem C1_probe_eval_corrected_witness :
    dConvSEval (Probe.two (1 : ℤ) 2) [Probe.two 3 5] = [1 * 5 + 2 * 3]
    ∧ dConvSEval (Probe.two (1 : ℤ) 2) [Probe.one 7]
        = [coeffAt (probeProd (Probe.two (1 : ℤ) 2) [Probe.one 7]) 1]
    ∧ dConvSEval (Probe.one (4 : ℤ)) [Probe.one 7]
        = probeProd (Probe.one (4 : ℤ)) [Probe.one 7]
    ∧ dConvSEval (Probe.one (4 : ℤ)) [Probe.one 7]
        = [[Probe.one (7 : ℤ)].foldl (fun c p => c * p.ord0) 4] :=
  C1_probe_eval_corrected 1 2 3 5 [Probe.one 7] 4 (by decide)

/-! ## Errors

Python exceptions raised by the compiler, one constructor per raise
site.  `outOfFuel` is an artifact of the fuel-indexed embedding of the
recursive transform (it never corresponds to a Python exception; every
theorem below holds for all sufficiently large fuel values). -/

/-- Exceptions raised inside the order algebra and the transform rules. -/
inductive Err where
  | sliceStartNeg    -- `ValueError('Slice start should > 0!')`
  | sliceEndNeg      -- `ValueError('Slice end should > 0!')`
  | sliceStartSym    -- `TypeError('Unsupported slice start!')`
  | sliceEndSym      -- `TypeError('Unsupported slice end!')`
  | dtNegOrder       -- `IndexError("Invalid DT order")` in `DT.__new__`
  | nonDTIndex       -- `ValueError('Non DT index input!')` in `dAdd.eval`
  | nonIndexSymbol   -- `TypeError("Non-Index symbol found in Index Expression ...")`
  | sinManyOps       -- `ValueError('Sin supports one operand ...')` in `dSin`/`dCos`
  | negDTIndex       -- `ValueError('DT index must be great than zero!')`
  | timeDerivOnly    -- `ValueError("Support time derivative only!")` in `dDerivative.eval`
  | invalidInputType -- `TypeError("Invalid inputs type ...")` in `dDerivative`/`dDelta`
  | linspaceSlice    -- `TypeError('Supports only integer input!')` in `dLinspace.eval`
  | unsupportedExpr  -- `TypeError("Unsupported Expr ...!")` in `_dtify`
  | symbolicCompare  -- Python `TypeError` from `if k.start >= 1` / `range(k.start)` on a symbolic bound
  | outOfFuel        -- fuel exhaustion (embedding artifact, see above)
deriving DecidableEq, Repr

/-! ## The order / range algebra

The DT order handed around by the compiler is one of: a plain Python
`int`, a sympy `Integer`, an `Index` symbol, a composite sympy
expression, or a `Slice` symbol.  The Python code dispatches on
`isinstance` checks between these, and a plain `int` and a sympy
`Integer` genuinely take different branches, so the embedding keeps
them distinct. -/

mutual
/-- An integer-valued sympy expression used as a DT order or slice
bound.  (sympy's re-sorting of commutative terms is not modeled; the
compiler only ever builds the shapes `k + c` and `c - e` here.) -/
inductive IExpr where
  | c (n : ℤ)            -- a sympy `Integer` literal inside an expression
  | ix (name : String)   -- an `Index` symbol
  | slcSym (s : Slc)     -- a `Slice` symbol occurring inside an expression
  | sym (name : String)  -- any other sympy `Symbol`
  | add (a b : IExpr)
  | mul (a b : IExpr)
deriving DecidableEq, Repr

/-- A constructed `Slice` value, keeping its bounds exactly as passed. -/
inductive Slc where
  | mk (start stop : Bnd)
deriving DecidableEq, Repr

/-- A `Slice` bound: a plain Python `int`, or a sympy expression
(which includes sympy `Integer`s and `Index` symbols). -/
inductive Bnd where
  | pint (n : ℤ)
  | expr (e : IExpr)
deriving DecidableEq, Repr
end

/-- The start bound of a slice. -/
def Slc.start : Slc → Bnd
  | .mk s _ => s

/-- The end bound of a slice. -/
def Slc.stop : Slc → Bnd
  | .mk _ e => e

/-- A DT order as dispatched on by the transform rules. -/
inductive KIdx where
  | pyInt (n : ℤ)      -- plain Python `int` (not a sympy `Expr`)
  | sInt (n : ℤ)       -- sympy `Integer`
  | index (name : String)  -- an `Index` symbol
  | iexp (e : IExpr)   -- a composite sympy expression
  | slice (s : Slc)    -- a `Slice` symbol
deriving DecidableEq, Repr

/-- `sympify` applied to an order: a plain Python `int` becomes a sympy
`Integer`; everything else is already a sympy object.  Applied by
`Function.__new__` to all arguments whenever a rule class is called. -/
def sympifyK : KIdx → KIdx
  | .pyInt n => .sInt n
  | k => k

/-- The free symbols of an integer-valued sympy expression, as
(kind, payload) markers.  `true` marks an `Index` symbol. -/
def IExpr.freeSymsIdx : IExpr → List Bool
  | .c _ => []
  | .ix _ => [true]
  | .slcSym _ => [false]
  | .sym _ => [false]
  | .add a b => a.freeSymsIdx ++ b.freeSymsIdx
  | .mul a b => a.freeSymsIdx ++ b.freeSymsIdx

/-- `all(isinstance(arg, (Number, Index)) for arg in e.free_symbols)`:
every free symbol of `e` is an `Index` symbol.  (sympy's
`free_symbols` never contains `Number`s, so the `Number` alternative in
the source check is vacuous.) -/
def IExpr.allFreeIdx (e : IExpr) : Bool :=
  e.freeSymsIdx.all id

/-- The end-bound validation of `Slice.__new__` (runs after the start
bound has been validated). -/
def sliceEndCheck (start stop : Bnd) : Except Err Slc :=
  match stop with
  | .expr f => if f.allFreeIdx then .ok (Slc.mk start stop) else .error .sliceEndSym
  | .pint m => if m < 0 then .error .sliceEndNeg else .ok (Slc.mk start stop)

/-- `Slice.__new__`: validates the start bound, then the end bound.  A
sympy-expression bound must have only `Index` free symbols
(`TypeError` otherwise); a plain-`int` bound must be non-negative
(`ValueError` otherwise).  No relation between start and end is
checked. -/
def sliceNew (start stop : Bnd) : Except Err Slc :=
  match start with
  | .expr e => if e.allFreeIdx then sliceEndCheck start stop else .error .sliceStartSym
  | .pint n => if n < 0 then .error .sliceStartNeg else sliceEndCheck start stop

/-- The per-bound condition `Slice.__new__` actually enforces: a plain
`int` bound is non-negative, a sympy-expression bound has only `Index`
free symbols. -/
def Bnd.valid : Bnd → Bool
  | .pint n => decide (0 ≤ n)
  | .expr e => e.allFreeIdx

/-- Claim C6, corrected.  A successfully constructed `Slice` keeps its
bounds exactly as passed, and each bound satisfies the per-bound
validity check — but no relation between start and end is enforced
(see `C6_slice_order_counterexample`). -/
theorem C6_slice_invariant_corrected (start stop : Bnd) (s : Slc)
    (h : sliceNew start stop = .ok s) :
    s.start = start ∧ s.stop = stop ∧ start.valid = true ∧ stop.valid = true := by
  cases start <;> cases stop <;>
    simp only [sliceNew, sliceEndCheck] at h <;>
    (repeat' split at h) <;>
    (first | cases h | skip) <;>
    simp_all [Bnd.valid, Slc.start, Slc.stop] <;>
    omega

/-- The claim's ordering invariant is false: `Slice(5, 2)` constructs
successfully although its start exceeds its end — `Slice.__new__`
never compares the two bounds. -/
theorem C6_slice_order_counterexample :
    sliceNew (Bnd.pint 5) (Bnd.pint 2) = .ok (Slc.mk (Bnd.pint 5) (Bnd.pint 2))
    ∧ ¬ (5 : ℤ) ≤ 2 :=
  ⟨rfl, by decide⟩

/-- Witness for `C6_slice_invariant_corrected` at `Slice(5, 2)`. -/
theorem C6_slice_invariant_corrected_witness :
    (Slc.mk (Bnd.pint 5) (Bnd.pint 2)).start = Bnd.pint 5
    ∧ (Slc.mk (Bnd.pint 5) (Bnd.pint 2)).stop = Bnd.pint 2
    ∧ (Bnd.pint 5).valid = true ∧ (Bnd.pint 2).valid = true :=
  C6_slice_invariant_corrected (Bnd.pint 5) (Bnd.pint 2) _ rfl

/-- Claim C7, confirmed.  Constructing a `Slice` with a negative plain
`int` bound fails with the negative-order error
(`ValueError('Slice start should > 0!')` / `('Slice end should > 0!')`,
the spec's `NegativeOrderOrRange`); an expression bound with a
non-`Index` free symbol fails with the non-Index-symbol error
(`TypeError('Unsupported slice start!')` / `('Unsupported slice end!')`,
the spec's `NonIndexSymbolInOrderExpression`); valid bounds
(non-negative plain ints, or expressions whose free symbols are all
`Index` symbols) construct successfully.  The start bound is validated
before the end bound. -/
theorem C7_range_validity (n m : ℤ) (e f : IExpr) (b : Bnd) :
    (n < 0 → sliceNew (Bnd.pint n) b = .error .sliceStartNeg)
    ∧ (0 ≤ n → m < 0 → sliceNew (Bnd.pint n) (Bnd.pint m) = .error .sliceEndNeg)
    ∧ (e.allFreeIdx = false → sliceNew (Bnd.expr e) b = .error .sliceStartSym)
    ∧ (e.allFreeIdx = true → m < 0 →
        sliceNew (Bnd.expr e) (Bnd.pint m) = .error .sliceEndNeg)
    ∧ (0 ≤ n → f.allFreeIdx = false →
        sliceNew (Bnd.pint n) (Bnd.expr f) = .error .sliceEndSym)
    ∧ (0 ≤ n → 0 ≤ m →
        sliceNew (Bnd.pint n) (Bnd.pint m) = .ok (Slc.mk (Bnd.pint n) (Bnd.pint m)))
    ∧ (0 ≤ n → f.allFreeIdx = true →
        sliceNew (Bnd.pint n) (Bnd.expr f) = .ok (Slc.mk (Bnd.pint n) (Bnd.expr f)))
    ∧ (e.allFreeIdx = true → 0 ≤ m →
        sliceNew (Bnd.expr e) (Bnd.pint m) = .ok (Slc.mk (Bnd.expr e) (Bnd.pint m)))
    ∧ (e.allFreeIdx = true → f.allFreeIdx = true →
        sliceNew (Bnd.expr e) (Bnd.expr f) = .ok (Slc.mk (Bnd.expr e) (Bnd.expr f))) := by
  refine ⟨?_, ?_, ?_, ?_, ?_, ?_, ?_, ?_, ?_⟩ <;> intros <;>
    simp only [sliceNew, sliceEndCheck] <;>
    (repeat' split) <;> simp_all <;> omega

/-- Witness for `C7_range_validity`: every branch applied at concrete
bounds with its hypotheses discharged. -/
theorem C7_range_validity_witness :
    sliceNew (Bnd.pint (-1)) (Bnd.pint 0) = .error .sliceStartNeg
    ∧ sliceNew (Bnd.pint 0) (Bnd.pint (-2)) = .error .sliceEndNeg
    ∧ sliceNew (Bnd.expr (.sym "x")) (Bnd.pint 0) = .error .sliceStartSym
    ∧ sliceNew (Bnd.expr (.ix "k")) (Bnd.pint (-2)) = .error .sliceEndNeg
    ∧ sliceNew (Bnd.pint 0) (Bnd.expr (.sym "x")) = .error .sliceEndSym
    ∧ sliceNew (Bnd.pint 0) (Bnd.pint 3) = .ok (Slc.mk (Bnd.pint 0) (Bnd.pint 3))
    ∧ sliceNew (Bnd.pint 0) (Bnd.expr (.ix "k"))
        = .ok (Slc.mk (Bnd.pint 0) (Bnd.expr (.ix "k")))
    ∧ sliceNew (Bnd.expr (.ix "k")) (Bnd.pint 3)
        = .ok (Slc.mk (Bnd.expr (.ix "k")) (Bnd.pint 3))
    ∧ sliceNew (Bnd.expr (.ix "k")) (Bnd.expr (.ix "m"))
        = .ok (Slc.mk (Bnd.expr (.ix "k")) (Bnd.expr (.ix "m"))) :=
  ⟨(C7_range_validity (-1) 0 (.ix "k") (.sym "x") (Bnd.pint 0)).1 (by decide),
   (C7_range_validity 0 (-2) (.ix "k") (.sym "x") (Bnd.pint 0)).2.1 (by decide) (by decide),
   (C7_range_validity 0 0 (.sym "x") (.sym "x") (Bnd.pint 0)).2.2.1 (by decide),
   (C7_range_validity 0 (-2) (.ix "k") (.sym "x") (Bnd.pint 0)).2.2.2.1 (by decide) (by decide),
   (C7_range_validity 0 0 (.ix "k") (.sym "x") (Bnd.pint 0)).2.2.2.2.1 (by decide) (by decide),
   (C7_range_validity 0 3 (.ix "k") (.sym "x") (Bnd.pint 0)).2.2.2.2.2.1 (by decide) (by decide),
   (C7_range_validity 0 3 (.ix "k") (.ix "k") (Bnd.pint 0)).2.2.2.2.2.2.1 (by decide) (by decide),
   (C7_range_validity 0 3 (.ix "k") (.sym "x") (Bnd.pint 0)).2.2.2.2.2.2.2.1 (by decide) (by decide),
   (C7_range_validity 0 3 (.ix "k") (.ix "m") (Bnd.pint 0)).2.2.2.2.2.2.2.2 (by decide) (by decide)⟩

/-! ## The expression tree

One type for sympy expressions on both sides of the transform.  Symbols
(`Symbol`, `Constant`, `phi`, `psi`, `DT`, `Index`, `Slice`) are atoms:
sympy's `free_symbols` does not descend into a `phi`/`psi` symbol's
`eqn` attribute or into a `DT` symbol's index, and neither does the
transform.  sympy's canonicalization of `Add`/`Mul` is modeled by the
smart constructors `mkAdd`/`mkMul` (flattening, merging of integer
literals, `0`/`1` identities); its re-sorting of commutative arguments
and merging of non-literal like terms are not modeled. -/

inductive Ex where
  | num (n : ℤ)                 -- sympy integer `Number`
  | var (name : String)         -- plain sympy `Symbol` (time is `var "t"`)
  | constM (name : String)      -- `Constant` marker wrapping symbol `name`
  | phiSym (arg : Ex)           -- `phi(arg)` auxiliary sine symbol
  | psiSym (arg : Ex)           -- `psi(arg)` auxiliary cosine symbol
  | dt (base : Ex) (k : KIdx)   -- `DT(base, k)` transform coefficient
  | idxSym (name : String)      -- an `Index` symbol used as a scalar
  | slcSy (s : Slc)             -- a `Slice` symbol used as a scalar
  | add (args : List Ex)        -- sympy n-ary `Add`
  | mul (args : List Ex)        -- sympy n-ary `Mul`
  | div (a b : Ex)              -- quotient `a / b` (sympy `Mul(a, Pow(b, -1))`)
  | powE (a b : Ex)             -- sympy `Pow(a, b)`
  | sinE (a : Ex)               -- `sin(a)`
  | cosE (a : Ex)               -- `cos(a)`
  | deriv (a : Ex) (v : String) -- `Derivative(a, (Symbol(v), 1))`
  | convS (args : List Ex)      -- unevaluated `dConv_s` node
  | convV (args : List Ex)      -- unevaluated `dConv_v` node
  | delta (k : KIdx)            -- unevaluated `dDelta` node
  | linspace (m n : KIdx)       -- unevaluated `dLinspace` node
  | dpow (k : KIdx) (args : List Ex) -- unevaluated `dPow` node

/-- sympy `Add(*args)`: flattens directly nested sums, merges integer
literals (a zero sum of literals is dropped, otherwise the literal
comes first), and returns `0` / the single term for zero / one
summands. -/
def mkAdd (args : List Ex) : Ex :=
  let flat := args.flatMap fun a =>
    match a with
    | .add l => l
    | x => [x]
  let n : ℤ := (flat.filterMap fun a =>
    match a with
    | .num m => some m
    | _ => none).sum
  let rest := flat.filter fun a =>
    match a with
    | .num _ => false
    | _ => true
  match (if n = 0 then rest else .num n :: rest) with
  | [] => .num 0
  | [x] => x
  | l => .add l

/-- sympy `Mul(*args)`: flattens directly nested products, merges
integer literals (`0` annihilates, `1` is dropped, otherwise the
literal comes first), and returns `1` / the single factor for zero /
one factors. -/
def mkMul (args : List Ex) : Ex :=
  let flat := args.flatMap fun a =>
    match a with
    | .mul l => l
    | x => [x]
  let n : ℤ := (flat.filterMap fun a =>
    match a with
    | .num m => some m
    | _ => none).prod
  let rest := flat.filter fun a =>
    match a with
    | .num _ => false
    | _ => true
  if n = 0 then .num 0
  else
    match (if n = 1 then rest else .num n :: rest) with
    | [] => .num 1
    | [x] => x
    | l => .mul l

/-- The Python `+` operator on sympy expressions. -/
def exAdd (a b : Ex) : Ex := mkAdd [a, b]

/-- The Python `*` operator.  `dConv_s.__mul__` / `dConv_v.__mul__`
fold the right factor into the convolution's last argument
(`args[-1] = Mul(args[-1] * other)`), recursively re-dispatching `*`;
any other left operand goes through sympy's `Mul` canonicalizer. -/
def exMul : Ex → Ex → Ex
  | .convS args, b => .convS (foldLast args b)
  | .convV args, b => .convV (foldLast args b)
  | a, b => mkMul [a, b]
where
  /-- Replace the last convolution argument `l` by `l * b`. -/
  foldLast : List Ex → Ex → List Ex
  | [], _ => []  -- unreachable: convolution nodes always carry arguments
  | [l], b => [exMul l b]
  | l :: rest, b => l :: foldLast rest b

/-- The Python `*` with a plain `int`/`float` left operand: the
`int` has no `__mul__` for sympy objects, so `dConv_s.__rmul__` /
`dConv_v.__rmul__` fire and fold the number into the convolution's
first argument (`args[0] = Mul(other * args[0])`), recursively
re-dispatching; other right operands go through `Mul`. -/
def exRMulNum (n : ℤ) : Ex → Ex
  | .convS args => .convS (foldFirst n args)
  | .convV args => .convV (foldFirst n args)
  | b => mkMul [.num n, b]
where
  /-- Replace the first convolution argument `h` by `n * h`. -/
  foldFirst : ℤ → List Ex → List Ex
  | _, [] => []  -- unreachable: convolution nodes always carry arguments
  | n, h :: t => exRMulNum n h :: t

/-- `Expr.__neg__`: `-a = Mul(-1, a)` (built by the constructor, so a
convolution operand is not folded into). -/
def exNeg (a : Ex) : Ex := mkMul [.num (-1), a]

/-- The Python `-` operator: `a - b = Add(a, Mul(-1, b))`. -/
def exSub (a b : Ex) : Ex := mkAdd [a, exNeg b]

/-- The Python `/` operator: kept as an explicit quotient node
(sympy represents it as `Mul(a, Pow(b, -1))`; the claims never
inspect quotient internals). -/
def exDiv (a b : Ex) : Ex := .div a b

/-- sympy `e + m` for an integer literal `m`, collapsing literals the
way sympy's `Add` canonicalizer does. -/
def IExpr.addC : IExpr → ℤ → IExpr
  | .c p, m => .c (p + m)
  | .add x (.c p), m =>
    if p + m = 0 then x else .add x (.c (p + m))
  | e, m => if m = 0 then e else .add e (.c m)

/-- sympy `e - f` on index expressions (`Add(e, Mul(-1, f))`, with
literals collapsed). -/
def iSub : IExpr → IExpr → IExpr
  | .c a, .c b => .c (a - b)
  | e, .c b => e.addC (-b)
  | e, f => .add e (.mul (.c (-1)) f)

/-- `k ± m` on a DT order, as computed by `dDerivative.eval` (`k + 1`)
and the `dSin`/`dCos` rules (`k - 1`): integer flavors stay integers;
an `Index` symbol, expression, or `Slice` symbol becomes the sympy
sum. -/
def KIdx.addInt : KIdx → ℤ → KIdx
  | .pyInt n, m => .pyInt (n + m)
  | .sInt n, m => .sInt (n + m)
  | .index s, m => .iexp (.add (.ix s) (.c m))
  | .iexp e, m => .iexp (e.addC m)
  | .slice s, m => .iexp (.add (.slcSym s) (.c m))

/-- A DT order passed as a `Slice` bound: a plain Python `int` stays an
`int`, sympy objects are kept as expressions. -/
def KIdx.toBnd : KIdx → Bnd
  | .pyInt n => .pint n
  | .sInt n => .expr (.c n)
  | .index s => .expr (.ix s)
  | .iexp e => .expr e
  | .slice s => .expr (.slcSym s)

/-- A `Slice` bound used as a sympy scalar (`k.end` in the
trigonometric ramps). -/
def IExpr.toEx : IExpr → Ex
  | .c n => .num n
  | .ix s => .idxSym s
  | .slcSym s => .slcSy s
  | .sym s => .var s
  | .add a b => mkAdd [a.toEx, b.toEx]
  | .mul a b => mkMul [a.toEx, b.toEx]

/-- A bound as a sympy scalar expression. -/
def Bnd.toEx : Bnd → Ex
  | .pint n => .num n
  | .expr e => e.toEx

/-- A DT order as a sympy scalar expression (the `(k+1)` coefficient in
the derivative rule, the `k` in trigonometric ramps). -/
def KIdx.toEx : KIdx → Ex
  | .pyInt n => .num n
  | .sInt n => .num n
  | .index s => .idxSym s
  | .iexp e => e.toEx
  | .slice s => .slcSy s

/-- The concrete integer value of a bound when Python can branch on it
(plain `int`s, and sympy `Integer`s via `__index__`); `none` models the
`TypeError` that `if k.start >= 1:` / `range(k.start)` raise on a
symbolic bound. -/
def Bnd.concrete? : Bnd → Option ℤ
  | .pint n => some n
  | .expr (.c n) => some n
  | _ => none

/-- `b - m` for a plain-`int` `m` (slice bound arithmetic
`k.start - i`, `k.end - i`). -/
def Bnd.subInt : Bnd → ℤ → Bnd
  | .pint n, m => .pint (n - m)
  | .expr e, m => .expr (e.addC (-m))

/-- `a - b` on slice bounds (`k.end - k.start`). -/
def Bnd.sub : Bnd → Bnd → Bnd
  | .pint m, .pint n => .pint (m - n)
  | .pint m, .expr e => .expr (iSub (.c m) e)
  | .expr e, .pint n => .expr (e.addC (-n))
  | .expr e, .expr f => .expr (iSub e f)

/-- Whether an order is a `Slice` symbol. -/
def KIdx.isSlice : KIdx → Bool
  | .slice _ => true
  | _ => false

/-- A slice bound handed back to a rule as a DT order (the
`k.end - k.start` arguments of `dLinspace`). -/
def Bnd.toK : Bnd → KIdx
  | .pint n => .pyInt n
  | .expr (.c n) => .sInt n
  | .expr (.ix s) => .index s
  | .expr (.slcSym s) => .slice s
  | .expr e => .iexp e

/-- The `dDelta(k)` function-class call: arguments are `sympify`d, then
`dDelta.eval` runs — a concrete integer evaluates to `1` (at 0) or `0`
(otherwise), an `Index` or `Slice` symbol keeps the node unevaluated,
and any other argument raises
`TypeError("Invalid inputs type ...")`. -/
def dDeltaMk (k : KIdx) : Except Err Ex :=
  match sympifyK k with
  | .sInt n => .ok (if n = 0 then .num 1 else .num 0)
  | .index s => .ok (.delta (.index s))
  | .slice s => .ok (.delta (.slice s))
  | .iexp _ => .error .invalidInputType
  | .pyInt _ => .error .invalidInputType  -- unreachable: sympify yields no plain ints

/-- The `dLinspace(m, n)` function-class call: `dLinspace.eval` raises
for `Slice` arguments, otherwise the node stays unevaluated. -/
def mkLinspace (m n : KIdx) : Except Err Ex :=
  let m := sympifyK m
  let n := sympifyK n
  if m.isSlice || n.isSlice then .error .linspaceSlice
  else .ok (.linspace m n)

/-- `DT(base, index)`: raises `IndexError("Invalid DT order")` for a
negative plain-`int` index (sympy `Integer`s are not Python `int`s and
escape the check), otherwise creates the coefficient symbol. -/
def mkDT (base : Ex) (k : KIdx) : Except Err Ex :=
  match k with
  | .pyInt n => if n < 0 then .error .dtNegOrder else .ok (.dt base (.pyInt n))
  | k => .ok (.dt base k)

/-! ## The transform rule set

`_dtify` and the `eval` classmethods of the registered rule classes.
Calling a rule class (`dfunc_mapping[Node.func](k, *Node.args)`) first
`sympify`s all arguments — so inside the rules a concrete order is
always a sympy `Integer`, never a plain Python `int` — and then runs
`eval`.  The Python recursion is embedded fuel-indexed: every
cross-call decrements the fuel once, `Err.outOfFuel` marks exhaustion,
and every result below is shown stable for all sufficiently large fuel
values. -/

/-- The `t` branch of `_dtify` for the symbol named `"t"`: a sympy
expression order with only `Index` free symbols (this includes sympy
`Integer`s, whose free-symbol set is empty!) and a `Slice` order give
the coefficient symbol `t[k]`; a plain-`int` order evaluates to `1` at
order 1, `0` at any other non-negative order, and raises for a
negative order. -/
def dtifyTSym (node : Ex) (k : KIdx) : Except Err Ex :=
  match k with
  | .sInt _ => mkDT node k
  | .index _ => mkDT node k
  | .iexp e => if e.allFreeIdx then mkDT node k else .error .nonIndexSymbol
  | .slice _ => mkDT node k
  | .pyInt n =>
    if n < 0 then .error .negDTIndex
    else if n = 1 then .ok (.num 1)
    else .ok (.num 0)

/-- `args[0].__repr__() == 't'`: the argument prints as the bare time
symbol. -/
def isTimeSym : Ex → Bool
  | .var "t" => true
  | _ => false

/-- Split an argument list at the first `Number` or `Constant` operand
(the extraction loop at the top of `dMul.eval`). -/
def splitAtNumConst : List Ex → Option (List Ex × Ex × List Ex)
  | [] => none
  | a :: rest =>
    match a with
    | .num n => some ([], .num n, rest)
    | .constM s => some ([], .constM s, rest)
    | a =>
      match splitAtNumConst rest with
      | some (pre, c, suf) => some (a :: pre, c, suf)
      | none => none

/-- The free-symbol guard shared by `dAdd`/`dMul`/`dSin`/`dCos`:
a composite index expression must mention only `Index` symbols. -/
def checkIdxExpr (k : KIdx) : Except Err Unit :=
  match k with
  | .iexp e => if e.allFreeIdx then .ok () else .error .nonIndexSymbol
  | _ => .ok ()

mutual

/-- `_dtify(Node, k)`: dispatch through `dfunc_mapping` (`Add`, `Mul`,
`sin`, `cos`, `Pow`, `Derivative` — the class call `sympify`s `k`),
else the symbol rule (`t` special-cased), else the `Number`/`Constant`
rule `Node * dDelta(k)`, else `TypeError("Unsupported Expr ...")`. -/
def dtifyAux : ℕ → Ex → KIdx → Except Err Ex
  | 0, _, _ => .error .outOfFuel
  | fuel+1, node, k =>
    match node with
    | .add args => dAddEval fuel (sympifyK k) args
    | .mul args => dMulEval fuel (sympifyK k) args
    | .div a b => dMulEval fuel (sympifyK k) [a, .powE b (.num (-1))]
    | .powE a b => .ok (.dpow (sympifyK k) [a, b])  -- `dPow` defines no `eval`: node stays unevaluated
    | .sinE u => dSinEval fuel (sympifyK k) [u]
    | .cosE u => dCosEval fuel (sympifyK k) [u]
    | .deriv a v => dDerivEval fuel (sympifyK k) a v
    | .var name => if name = "t" then dtifyTSym (.var "t") k else mkDT (.var name) k
    | .idxSym name => if name = "t" then dtifyTSym (.idxSym "t") k else mkDT (.idxSym name) k
    | .phiSym u => mkDT (.phiSym u) k
    | .psiSym u => mkDT (.psiSym u) k
    | .dt b i => mkDT (.dt b i) k  -- a `DT` symbol is a `Symbol` named `"x[k]" ≠ "t"`
    | .slcSy s => mkDT (.slcSy s) k
    | .num n =>
      match dDeltaMk k with
      | .ok d => .ok (exMul (.num n) d)
      | .error e => .error e
    | .constM name =>
      match dDeltaMk k with
      | .ok d => .ok (exMul (.constM name) d)
      | .error e => .error e
    | .convS _ => .error .unsupportedExpr
    | .convV _ => .error .unsupportedExpr
    | .delta _ => .error .unsupportedExpr
    | .linspace _ _ => .error .unsupportedExpr
    | .dpow _ _ => .error .unsupportedExpr

/-- `dAdd.eval(k, *args)`: the transform distributes over the
summands at the same order (after the non-`Index`-symbol guard); a
non-sympy order raises `ValueError('Non DT index input!')`. -/
def dAddEval : ℕ → KIdx → List Ex → Except Err Ex
  | 0, _, _ => .error .outOfFuel
  | fuel+1, k, args =>
    match k with
    | .pyInt _ => .error .nonDTIndex  -- unreachable after `sympify`
    | k => do
      checkIdxExpr k
      let ts ← args.mapM (fun a => dtifyAux fuel a k)
      .ok (mkAdd ts)

/-- `dMul.eval(k, *args)`: a `Number`/`Constant` operand is pulled out
of the convolution as a plain multiplier (first such operand, split by
position); otherwise a symbolic order gives
`dConv_s` over `x_i[0:k]`, a `Slice` order the `dConv_v` form with
boundary-correction sum, a concrete order `k ≥ 1` the `dConv_s` over
`x_i[0:k]`, and order `0` the plain product of order-0 transforms. -/
def dMulEval : ℕ → KIdx → List Ex → Except Err Ex
  | 0, _, _ => .error .outOfFuel
  | fuel+1, k, args =>
    match splitAtNumConst args with
    | some ([], c, suf) => do
      let r ← dtifyAux fuel (mkMul suf) k
      .ok (mkMul [c, r])
    | some (pre, c, []) => do
      let r ← dtifyAux fuel (mkMul pre) k
      .ok (mkMul [r, c])
    | some (pre, c, suf) => do
      let r1 ← dtifyAux fuel (mkMul pre) k
      let r2 ← dtifyAux fuel (mkMul suf) k
      .ok (mkMul [r1, c, r2])
    | none =>
      match k with
      | .index name => do
        let s ← sliceNew (.pint 0) (KIdx.index name).toBnd
        let ts ← args.mapM (fun a => dtifyAux fuel a (.slice s))
        .ok (.convS ts)
      | .iexp e => do
        checkIdxExpr (.iexp e)
        let s ← sliceNew (.pint 0) (KIdx.iexp e).toBnd
        let ts ← args.mapM (fun a => dtifyAux fuel a (.slice s))
        .ok (.convS ts)
      | .slice s => dMulSlice fuel s args
      | .sInt n =>
        if 1 ≤ n then do
          let s ← sliceNew (.pint 0) (KIdx.sInt n).toBnd
          let ts ← args.mapM (fun a => dtifyAux fuel a (.slice s))
          .ok (.convS ts)
        else do
          let ts ← args.mapM (fun a => dtifyAux fuel a (.pyInt 0))
          .ok (mkMul ts)
      | .pyInt n =>  -- unreachable after `sympify`; behaves like the integer branch
        if 1 ≤ n then do
          let s ← sliceNew (.pint 0) (KIdx.pyInt n).toBnd
          let ts ← args.mapM (fun a => dtifyAux fuel a (.slice s))
          .ok (.convS ts)
        else do
          let ts ← args.mapM (fun a => dtifyAux fuel a (.pyInt 0))
          .ok (mkMul ts)

/-- The `Slice`-order branch of `dMul.eval`: for `k0 ≥ 1`,
`dConv_v(x[0:k1-k0], y[k0:k1])` plus the boundary correction sum
`Σ_{i<k0} x[k0-i:k1-i] * y[i]`; for `k0 = 0` the plain
`dConv_v(x[k0:k1], y[k0:k1])`. -/
def dMulSlice : ℕ → Slc → List Ex → Except Err Ex
  | 0, _, _ => .error .outOfFuel
  | fuel+1, s, args =>
    match args with
    | [] => .error .unsupportedExpr  -- unreachable: a `Mul` node has at least two factors
    | a :: rest =>
      match s.start.concrete? with
      | none => .error .symbolicCompare  -- `if k.start >= 1:` on a symbolic bound
      | some st =>
        if 1 ≤ st then do
          let sl0 ← sliceNew (.pint 0) (s.stop.sub s.start)
          let x0 ← dtifyAux fuel a (.slice sl0)
          let y0 ← dtifyAux fuel (mkMul rest) (.slice s)
          (List.range st.toNat).foldlM (fun temp i => do
              let sl ← sliceNew (s.start.subInt i) (s.stop.subInt i)
              let xi ← dtifyAux fuel a (.slice sl)
              let yi ← dtifyAux fuel (mkMul rest) (.pyInt i)
              .ok (exAdd temp (exMul xi yi)))
            (Ex.convV [x0, y0])
        else do
          let x0 ← dtifyAux fuel a (.slice s)
          let y0 ← dtifyAux fuel (mkMul rest) (.slice s)
          .ok (.convV [x0, y0])

/-- `dSin.eval(k, *args)`: the coupled recurrence for
`phi = sin(u)` in terms of `psi = cos(u)` — weighted convolutions for
symbolic and concrete orders `k ≥ 2`, `psi[0]*u[1]` at order 1,
`phi[0]` (or `0` for `u = t`) at order 0, and `dConv_v` forms with
boundary corrections for `Slice` orders. -/
def dSinEval : ℕ → KIdx → List Ex → Except Err Ex
  | 0, _, _ => .error .outOfFuel
  | fuel+1, k, args =>
    if args.length > 1 then .error .sinManyOps
    else
      match args with
      | [] => .error .unsupportedExpr  -- unreachable: `sin` has one argument
      | u :: _ =>
        match k with
        | .index _ | .iexp _ => do
          checkIdxExpr k
          let lin ← mkLinspace (.sInt 0) (k.addInt (-1))
          let sl1 ← sliceNew (.pint 0) (k.addInt (-1)).toBnd
          let psis ← mkDT (.psiSym u) (.slice sl1)
          let sl2 ← sliceNew (.pint 1) k.toBnd
          let xs ← dtifyAux fuel u (.slice sl2)
          .ok (.convS [exMul (exDiv (exSub k.toEx lin) k.toEx) psis, xs])
        | .slice s =>
          match s.start.concrete? with
          | none => .error .symbolicCompare
          | some st =>
            if 1 ≤ st then do
              let sl0 ← sliceNew (.pint 0) (s.stop.sub s.start)
              let psi1 ← mkDT (.psiSym u) (.slice sl0)
              let lin0 ← mkLinspace (.sInt 0) (s.stop.sub s.start).toK
              let xk ← dtifyAux fuel u (.slice s)
              (List.range st.toNat).foldlM (fun temp i => do
                  let sl ← sliceNew (s.start.subInt i) (s.stop.subInt i)
                  let lin ← mkLinspace (s.start.subInt i).toK (s.stop.subInt i).toK
                  let psii ← mkDT (.psiSym u) (.slice sl)
                  let ui ← dtifyAux fuel u (.pyInt i)
                  .ok (exAdd temp
                    (exMul (exMul (exDiv (exSub s.stop.toEx lin) s.stop.toEx) psii) ui)))
                (Ex.convV [exMul (exDiv (exSub s.stop.toEx lin0) s.stop.toEx) psi1, xk])
            else do
              let slk ← sliceNew (.pint 0) s.stop
              let d ← dDeltaMk (.slice slk)
              let phi0 ← mkDT (.phiSym u) (.pyInt 0)
              let psiS ← mkDT (.psiSym u) (.slice slk)
              let lin ← mkLinspace (.sInt 0) s.stop.toK
              let xs ← dtifyAux fuel u (.slice slk)
              .ok (exAdd (exMul d phi0)
                (exMul (Ex.convV [exMul (exDiv (exSub s.stop.toEx lin) s.stop.toEx) psiS, xs])
                  (exSub (.num 1) d)))
        | .sInt n =>
          if 1 < n then do
            let lin ← mkLinspace (.sInt 0) (.sInt (n - 1))
            let sl1 ← sliceNew (.pint 0) (KIdx.sInt (n - 1)).toBnd
            let psis ← mkDT (.psiSym u) (.slice sl1)
            let sl2 ← sliceNew (.pint 1) (KIdx.sInt n).toBnd
            let xs ← dtifyAux fuel u (.slice sl2)
            .ok (.convS [exMul (exDiv (exSub (.num n) lin) (.num n)) psis, xs])
          else if n = 1 then do
            let psi0 ← mkDT (.psiSym u) (.pyInt 0)
            let x1 ← dtifyAux fuel u (.pyInt 1)
            .ok (exMul psi0 x1)
          else if n = 0 then
            if isTimeSym u then .ok (.num 0)  -- `sin(t)[0] = 0`
            else mkDT (.phiSym u) (.pyInt 0)
          else .error .negDTIndex
        | .pyInt _ => .error .negDTIndex  -- unreachable after `sympify`

/-- `dCos.eval(k, *args)`: the mirror of `dSin.eval` with the sign
flipped and `phi`/`psi` swapped; `cos(t)[0] = 1`. -/
def dCosEval : ℕ → KIdx → List Ex → Except Err Ex
  | 0, _, _ => .error .outOfFuel
  | fuel+1, k, args =>
    if args.length > 1 then .error .sinManyOps
    else
      match args with
      | [] => .error .unsupportedExpr  -- unreachable: `cos` has one argument
      | u :: _ =>
        match k with
        | .index _ | .iexp _ => do
          checkIdxExpr k
          let lin ← mkLinspace (.sInt 0) (k.addInt (-1))
          let sl1 ← sliceNew (.pint 0) (k.addInt (-1)).toBnd
          let phis ← mkDT (.phiSym u) (.slice sl1)
          let sl2 ← sliceNew (.pint 1) k.toBnd
          let xs ← dtifyAux fuel u (.slice sl2)
          .ok (exNeg (.convS [exMul (exDiv (exSub k.toEx lin) k.toEx) phis, xs]))
        | .slice s =>
          match s.start.concrete? with
          | none => .error .symbolicCompare
          | some st =>
            if 1 ≤ st then do
              let sl0 ← sliceNew (.pint 0) (s.stop.sub s.start)
              let phi1 ← mkDT (.phiSym u) (.slice sl0)
              let lin0 ← mkLinspace (.sInt 0) (s.stop.sub s.start).toK
              let xk ← dtifyAux fuel u (.slice s)
              (List.range st.toNat).foldlM (fun temp i => do
                  let sl ← sliceNew (s.start.subInt i) (s.stop.subInt i)
                  let lin ← mkLinspace (s.start.subInt i).toK (s.stop.subInt i).toK
                  let phii ← mkDT (.phiSym u) (.slice sl)
                  let ui ← dtifyAux fuel u (.pyInt i)
                  .ok (exSub temp
                    (exMul (exMul (exDiv (exSub s.stop.toEx lin) s.stop.toEx) phii) ui)))
                (exNeg (Ex.convV [exMul (exDiv (exSub s.stop.toEx lin0) s.stop.toEx) phi1, xk]))
            else do
              let slk ← sliceNew (.pint 0) s.stop
              let d ← dDeltaMk (.slice slk)
              let psi0 ← mkDT (.psiSym u) (.pyInt 0)
              let phiS ← mkDT (.phiSym u) (.slice slk)
              let lin ← mkLinspace (.sInt 0) s.stop.toK
              let xs ← dtifyAux fuel u (.slice slk)
              .ok (exSub (exMul (exNeg d) psi0)
                (exMul (Ex.convV [exMul (exDiv (exSub s.stop.toEx lin) s.stop.toEx) phiS, xs])
                  (exSub (.num 1) d)))
        | .sInt n =>
          if 1 < n then do
            let lin ← mkLinspace (.sInt 0) (.sInt (n - 1))
            let sl1 ← sliceNew (.pint 0) (KIdx.sInt (n - 1)).toBnd
            let phis ← mkDT (.phiSym u) (.slice sl1)
            let sl2 ← sliceNew (.pint 1) (KIdx.sInt n).toBnd
            let xs ← dtifyAux fuel u (.slice sl2)
            .ok (exNeg (.convS [exMul (exDiv (exSub (.num n) lin) (.num n)) phis, xs]))
          else if n = 1 then do
            let phi0 ← mkDT (.phiSym u) (.pyInt 0)
            let x1 ← dtifyAux fuel u (.pyInt 1)
            .ok (exMul (exNeg phi0) x1)
          else if n = 0 then
            if isTimeSym u then .ok (.num 1)  -- `cos(t)[0] = 1`
            else mkDT (.psiSym u) (.pyInt 0)
          else .error .negDTIndex
        | .pyInt _ => .error .negDTIndex  -- unreachable after `sympify`

/-- `dDerivative.eval(k, (expr, (var, 1)))`: a derivative with respect
to anything but `t` raises `ValueError("Support time derivative
only!")`; otherwise the shift rule `(k+1) * transform(expr, k+1)`. -/
def dDerivEval : ℕ → KIdx → Ex → String → Except Err Ex
  | 0, _, _, _ => .error .outOfFuel
  | fuel+1, k, a, v =>
    if v ≠ "t" then .error .timeDerivOnly
    else
      match k with
      | .pyInt _ => .error .invalidInputType  -- unreachable after `sympify`
      | k => do
        let r ← dtifyAux fuel a (k.addInt 1)
        .ok (exMul (k.addInt 1).toEx r)

end

/-! ## Claims about the rule set -/

/-- Claim C5, confirmed.  The Kronecker delta node `dDelta` evaluates
to `1` at concrete integer order `0`, to `0` at every concrete integer
order greater than `0`, and remains an unevaluated symbolic node when
its argument is a symbolic `Index` or `Slice`. -/
theorem C5_delta_law (n : ℤ) (name : String) (s : Slc) :
    dDeltaMk (.sInt 0) = .ok (.num 1)
    ∧ (0 < n → dDeltaMk (.sInt n) = .ok (.num 0))
    ∧ dDeltaMk (.index name) = .ok (.delta (.index name))
    ∧ dDeltaMk (.slice s) = .ok (.delta (.slice s)) := by
  refine ⟨rfl, fun h => ?_, rfl, rfl⟩
  have hn : n ≠ 0 := by omega
  simp [dDeltaMk, sympifyK, hn]

/-- Witness for `C5_delta_law` at `n = 2`, `name = "k"`,
`s = Slice(0, k)`, hypotheses discharged. -/
theorem C5_delta_law_witness :
    dDeltaMk (.sInt 0) = .ok (.num 1)
    ∧ dDeltaMk (.sInt 2) = .ok (.num 0)
    ∧ dDeltaMk (.index "k") = .ok (.delta (.index "k"))
    ∧ dDeltaMk (.slice (Slc.mk (.pint 0) (.expr (.ix "k"))))
        = .ok (.delta (.slice (Slc.mk (.pint 0) (.expr (.ix "k"))))) :=
  ⟨(C5_delta_law 2 "k" (Slc.mk (.pint 0) (.expr (.ix "k")))).1,
   (C5_delta_law 2 "k" (Slc.mk (.pint 0) (.expr (.ix "k")))).2.1 (by decide),
   (C5_delta_law 2 "k" (Slc.mk (.pint 0) (.expr (.ix "k")))).2.2.1,
   (C5_delta_law 2 "k" (Slc.mk (.pint 0) (.expr (.ix "k")))).2.2.2⟩

/-- Claim C3, confirmed.  For every modeled variable `x` (any symbol
not named `"t"`; the time symbol has its own transform, claim C9) and
every order `k` — concrete integer, `Index` symbol, `Slice`, or `Index`
expression — the transform of `Derivative(x, t)` is
`(k+1) * x[k+1]`, where `k+1` is computed on the `sympify`d order; and
a derivative with respect to any variable other than `t` fails with
`ValueError("Support time derivative only!")`.  (Only first-order
derivatives reach `dDerivative.eval` in the driver pipeline.) -/
theorem C3_derivative_shift (fuel : ℕ) (name v : String) (hn : name ≠ "t")
    (hv : v ≠ "t") (k : KIdx) :
    dtifyAux (fuel + 3) (.deriv (.var name) "t") k
      = .ok (exMul ((sympifyK k).addInt 1).toEx (.dt (.var name) ((sympifyK k).addInt 1)))
    ∧ dtifyAux (fuel + 3) (.deriv (.var name) v) k = .error .timeDerivOnly := by
  constructor
  · cases k <;>
      simp [dtifyAux, dDerivEval, sympifyK, KIdx.addInt, mkDT, IExpr.addC, hn,
        Bind.bind, Except.bind]
  · simp [dtifyAux, dDerivEval, hv]

/-- Witness for `C3_derivative_shift` at `x`, `y`, order `k`. -/
theorem C3_derivative_shift_witness :
    dtifyAux 3 (.deriv (.var "x") "t") (.index "k")
      = .ok (exMul ((sympifyK (.index "k")).addInt 1).toEx
          (.dt (.var "x") ((sympifyK (.index "k")).addInt 1)))
    ∧ dtifyAux 3 (.deriv (.var "x") "y") (.index "k") = .error .timeDerivOnly :=
  C3_derivative_shift 0 "x" "y" (by decide) (by decide) (.index "k")

/-- Claim C9, confirmed.  `_dtify` applied to the symbol named `"t"`
with a concrete (plain Python `int`) order returns `1` at order `1`,
`0` at order `0` and at every concrete order greater than `1`, and
fails (`ValueError('DT index must be great than zero!')`) for a
negative order; at a symbolic `Index` or `Slice` order it returns the
coefficient symbol `t[k]` instead. -/
theorem C9_time_symbol_rule (fuel : ℕ) (n : ℤ) (name : String) (s : Slc) :
    dtifyAux (fuel + 1) (.var "t") (.pyInt 1) = .ok (.num 1)
    ∧ (n = 0 ∨ 1 < n → dtifyAux (fuel + 1) (.var "t") (.pyInt n) = .ok (.num 0))
    ∧ (n < 0 → dtifyAux (fuel + 1) (.var "t") (.pyInt n) = .error .negDTIndex)
    ∧ dtifyAux (fuel + 1) (.var "t") (.index name) = .ok (.dt (.var "t") (.index name))
    ∧ dtifyAux (fuel + 1) (.var "t") (.slice s) = .ok (.dt (.var "t") (.slice s)) := by
  refine ⟨rfl, fun h => ?_, fun h => ?_, rfl, rfl⟩
  · have h0 : ¬ n < 0 := by omega
    have h1 : n ≠ 1 := by omega
    simp [dtifyAux, dtifyTSym, h0, h1]
  · simp [dtifyAux, dtifyTSym, h]

/-! ### The Cauchy product law (claim C2)

The value denoted by a `dConv_s` node over coefficient windows, per the
`dConv_s` docstring: each argument is a coefficient vector in
`R^{n+1}`, and the node denotes the coefficient of the degree-`n` term
of the product of the corresponding polynomials. -/

/-- The coefficient window `[x[a], ..., x[b]]` denoted by the slice
symbol `x[a:b]` under a coefficient assignment `ρ`. -/
def windowVec (ρ : String → ℕ → ℚ) (x : String) (a b : ℕ) : List ℚ :=
  (List.range (b + 1 - a)).map fun j => ρ x (a + j)

/-- The value denoted by a scalar convolution node (docstring of
`dConv_s`): the top-degree coefficient of the product of the
polynomials given by the argument coefficient vectors. -/
def convSValue : List (List ℚ) → ℚ
  | [] => 0
  | v :: rest => coeffAt (rest.foldl polyMul v) (v.length - 1)

lemma coeffAt_nil (n : ℕ) : coeffAt ([] : List ℚ) n = 0 := rfl

lemma coeffAt_cons_zero (a : ℚ) (l : List ℚ) : coeffAt (a :: l) 0 = a := rfl

lemma coeffAt_cons_succ (a : ℚ) (l : List ℚ) (n : ℕ) :
    coeffAt (a :: l) (n + 1) = coeffAt l n := by
  simp [coeffAt]

lemma coeffAt_polyAdd (p q : List ℚ) (n : ℕ) :
    coeffAt (polyAdd p q) n = coeffAt p n + coeffAt q n := by
  induction p generalizing q n with
  | nil => simp [polyAdd, coeffAt_nil]
  | cons a p ih =>
    cases q with
    | nil => simp [polyAdd, coeffAt_nil]
    | cons b q =>
      cases n with
      | zero => simp [polyAdd, coeffAt_cons_zero]
      | succ n => simp [polyAdd, coeffAt_cons_succ, ih]

lemma coeffAt_polyScale (a : ℚ) (q : List ℚ) (n : ℕ) :
    coeffAt (polyScale a q) n = a * coeffAt q n := by
  induction q generalizing n with
  | nil => simp [polyScale, coeffAt_nil]
  | cons b q ih =>
    cases n with
    | zero => simp [polyScale, coeffAt_cons_zero]
    | succ n => simpa [polyScale, coeffAt_cons_succ] using ih n

/-- The defining property of polynomial multiplication on coefficient
lists: the degree-`n` coefficient of a product is the Cauchy sum. -/
lemma coeffAt_polyMul (p q : List ℚ) (n : ℕ) :
    coeffAt (polyMul p q) n
      = ∑ m ∈ Finset.range (n + 1), coeffAt p m * coeffAt q (n - m) := by
  induction p generalizing n with
  | nil => simp [polyMul, coeffAt_nil]
  | cons a p ih =>
    cases n with
    | zero =>
      rw [polyMul, coeffAt_polyAdd, coeffAt_polyScale, coeffAt_cons_zero]
      simp [Finset.sum_range_one, coeffAt_cons_zero]
    | succ n =>
      rw [polyMul, coeffAt_polyAdd, coeffAt_polyScale, coeffAt_cons_succ, ih]
      rw [show (∑ m ∈ Finset.range (n + 1 + 1), coeffAt (a :: p) m * coeffAt q (n + 1 - m))
          = (∑ i ∈ Finset.range (n + 1), coeffAt (a :: p) (i + 1) * coeffAt q (n + 1 - (i + 1)))
            + coeffAt (a :: p) 0 * coeffAt q (n + 1 - 0) from Finset.sum_range_succ' _ (n + 1)]
      simp only [coeffAt_cons_succ, coeffAt_cons_zero, Nat.succ_sub_succ, Nat.sub_zero]
      ring

lemma coeffAt_windowVec (ρ : String → ℕ → ℚ) (x : String) (k m : ℕ)
    (hm : m ≤ k) : coeffAt (windowVec ρ x 0 k) m = ρ x m := by
  have hlt : m < k + 1 := by omega
  unfold windowVec coeffAt
  rw [List.getD_eq_getElem?_getD, List.getElem?_map, Nat.sub_zero,
    List.getElem?_range hlt]
  simp

/-- Claim C2, confirmed.  For two distinct non-constant variables `x`,
`y` (neither the time symbol) and every concrete integer order:

* at order `0`, the transform of `x*y` is the plain product
  `x[0]*y[0]`;
* at order `k ≥ 1`, it is the scalar convolution
  `dConv_s(x[0:k], y[0:k])`;
* the value denoted by that convolution is the Cauchy sum
  `Σ_{m=0}^{k} x[m]·y[k−m]`;
* `Number`/`Constant` operands are pulled out of the convolution as
  plain multipliers (`dtify(a*x*y)` gives `a * (x[0:k] ⊗ y[0:k])`,
  not a three-way convolution). -/
theorem C2_cauchy_product (fuel : ℕ) (x y a : String) (k : ℕ)
    (hx : x ≠ "t") (hy : y ≠ "t") (hxy : x ≠ y) (hk : 1 ≤ k)
    (ρ : String → ℕ → ℚ) :
    dtifyAux (fuel + 3) (.mul [.var x, .var y]) (.pyInt 0)
      = .ok (.mul [.dt (.var x) (.pyInt 0), .dt (.var y) (.pyInt 0)])
    ∧ dtifyAux (fuel + 3) (.mul [.var x, .var y]) (.pyInt (k : ℤ))
      = .ok (.convS [.dt (.var x) (.slice (Slc.mk (.pint 0) (.expr (.c (k : ℤ))))),
                     .dt (.var y) (.slice (Slc.mk (.pint 0) (.expr (.c (k : ℤ)))))])
    ∧ convSValue [windowVec ρ x 0 k, windowVec ρ y 0 k]
      = ∑ m ∈ Finset.range (k + 1), ρ x m * ρ y (k - m)
    ∧ dtifyAux (fuel + 5) (.mul [.constM a, .var x, .var y]) (.pyInt (k : ℤ))
      = .ok (.mul [.constM a,
          .convS [.dt (.var x) (.slice (Slc.mk (.pint 0) (.expr (.c (k : ℤ))))),
                  .dt (.var y) (.slice (Slc.mk (.pint 0) (.expr (.c (k : ℤ)))))]]) := by
  have hk' : (1 : ℤ) ≤ (k : ℤ) := by exact_mod_cast hk
  have hkpos : ¬ ((k : ℤ) < 0) := by omega
  refine ⟨?_, ?_, ?_, ?_⟩
  · simp [dtifyAux, dMulEval, splitAtNumConst, sympifyK, mkDT, mkMul, hx, hy,
      List.mapM.loop, List.flatMap, List.filterMap, List.filter,
      Bind.bind, Except.bind, pure, Except.pure]
  · simp [dtifyAux, dMulEval, splitAtNumConst, sympifyK, mkDT, hx, hy, hk',
      sliceNew, sliceEndCheck, IExpr.allFreeIdx, IExpr.freeSymsIdx, KIdx.toBnd,
      List.mapM.loop, List.flatMap, List.filterMap, List.filter,
      Bind.bind, Except.bind, pure, Except.pure]
  · show coeffAt ([windowVec ρ y 0 k].foldl polyMul (windowVec ρ x 0 k))
        ((windowVec ρ x 0 k).length - 1)
        = ∑ m ∈ Finset.range (k + 1), ρ x m * ρ y (k - m)
    have hlen : (windowVec ρ x 0 k).length = k + 1 := by
      simp [windowVec]
    simp only [List.foldl, hlen, Nat.add_sub_cancel]
    rw [coeffAt_polyMul]
    refine Finset.sum_congr rfl fun m hm => ?_
    have hm' : m ≤ k := by
      have := Finset.mem_range.mp hm
      omega
    rw [coeffAt_windowVec ρ x k m hm', coeffAt_windowVec ρ y k (k - m) (by omega)]
  · simp [dtifyAux, dMulEval, splitAtNumConst, sympifyK, mkDT, mkMul, hx, hy, hk',
      sliceNew, sliceEndCheck, IExpr.allFreeIdx, IExpr.freeSymsIdx, KIdx.toBnd,
      List.mapM.loop, List.flatMap, List.filterMap, List.filter,
      Bind.bind, Except.bind, pure, Except.pure]

/-- Witness for `C2_cauchy_product` at `x`, `y`, constant `a`, order
`k = 2`, coefficients `ρ x m = m`, `ρ y m = m + 1`. -/
theorem C2_cauchy_product_witness :
    dtifyAux 3 (.mul [.var "x", .var "y"]) (.pyInt 0)
      = .ok (.mul [.dt (.var "x") (.pyInt 0), .dt (.var "y") (.pyInt 0)])
    ∧ dtifyAux 3 (.mul [.var "x", .var "y"]) (.pyInt (2 : ℤ))
      = .ok (.convS [.dt (.var "x") (.slice (Slc.mk (.pint 0) (.expr (.c (2 : ℤ))))),
                     .dt (.var "y") (.slice (Slc.mk (.pint 0) (.expr (.c (2 : ℤ)))))])
    ∧ convSValue [windowVec (fun _ m => (m : ℚ)) "x" 0 2,
                  windowVec (fun _ m => (m : ℚ)) "y" 0 2]
      = ∑ m ∈ Finset.range (2 + 1),
          (fun (_ : String) (m : ℕ) => (m : ℚ)) "x" m
            * (fun (_ : String) (m : ℕ) => (m : ℚ)) "y" (2 - m)
    ∧ dtifyAux 5 (.mul [.constM "a", .var "x", .var "y"]) (.pyInt (2 : ℤ))
      = .ok (.mul [.constM "a",
          .convS [.dt (.var "x") (.slice (Slc.mk (.pint 0) (.expr (.c (2 : ℤ))))),
                  .dt (.var "y") (.slice (Slc.mk (.pint 0) (.expr (.c (2 : ℤ)))))]]) :=
  C2_cauchy_product 0 "x" "y" "a" 2 (by decide) (by decide) (by decide)
    (by omega) (fun _ m => (m : ℚ))

/-- Witness for `C9_time_symbol_rule` at orders `1`, `3`, `-1`,
`Index k` and `Slice(0, k)`, hypotheses discharged. -/
theorem C9_time_symbol_rule_witness :
    dtifyAux 1 (.var "t") (.pyInt 1) = .ok (.num 1)
    ∧ dtifyAux 1 (.var "t") (.pyInt 3) = .ok (.num 0)
    ∧ dtifyAux 1 (.var "t") (.pyInt (-1)) = .error .negDTIndex
    ∧ dtifyAux 1 (.var "t") (.index "k") = .ok (.dt (.var "t") (.index "k"))
    ∧ dtifyAux 1 (.var "t") (.slice (Slc.mk (.pint 0) (.expr (.ix "k"))))
        = .ok (.dt (.var "t") (.slice (Slc.mk (.pint 0) (.expr (.ix "k"))))) :=
  ⟨(C9_time_symbol_rule 0 3 "k" (Slc.mk (.pint 0) (.expr (.ix "k")))).1,
   (C9_time_symbol_rule 0 3 "k" (Slc.mk (.pint 0) (.expr (.ix "k")))).2.1 (by decide),
   (C9_time_symbol_rule 0 (-1) "k" (Slc.mk (.pint 0) (.expr (.ix "k")))).2.2.1 (by decide),
   (C9_time_symbol_rule 0 3 "k" (Slc.mk (.pint 0) (.expr (.ix "k")))).2.2.2.1,
   (C9_time_symbol_rule 0 3 "k" (Slc.mk (.pint 0) (.expr (.ix "k")))).2.2.2.2⟩

/-! ## The compiler driver `dtify`

Symbol names, free-symbol collection, symbol substitution, and the
driver pipeline: constant marking, the already-transformed check,
trigonometric substitution, `_dtify` dispatch and `k_eqn` packaging.
String renderings approximate sympy printing; they agree with it on
the symbol shapes the theorems instantiate. -/

mutual
/-- Printing of index expressions (approximates `str` of sympy). -/
def IExpr.render : IExpr → String
  | .c n => toString n
  | .ix s => s
  | .slcSym s => s.render
  | .sym s => s
  | .add a b => a.render ++ " + " ++ b.render
  | .mul a b => a.render ++ "*" ++ b.render

/-- Printing of a `Slice` symbol: `f'{start}:{end}'`. -/
def Slc.render : Slc → String
  | .mk a b => a.render ++ ":" ++ b.render

/-- Printing of a slice bound. -/
def Bnd.render : Bnd → String
  | .pint n => toString n
  | .expr e => e.render
end

/-- Printing of a DT order. -/
def KIdx.render : KIdx → String
  | .pyInt n => toString n
  | .sInt n => toString n
  | .index s => s
  | .iexp e => e.render
  | .slice s => s.render

/-- Printing of expressions (approximates sympy `repr`; used only to
form `phi_...`/`psi_...`/`x[k]` symbol names). -/
def Ex.render : Ex → String
  | .num n => toString n
  | .var s => s
  | .constM s => s
  | .phiSym a => "phi_" ++ a.render
  | .psiSym a => "psi_" ++ a.render
  | .dt b k => b.render ++ "[" ++ k.render ++ "]"
  | .idxSym s => s
  | .slcSy s => s.render
  | .add args => "Add(" ++ renderList args ++ ")"
  | .mul args => "Mul(" ++ renderList args ++ ")"
  | .div a b => a.render ++ "/" ++ b.render
  | .powE a b => a.render ++ "**" ++ b.render
  | .sinE a => "sin(" ++ a.render ++ ")"
  | .cosE a => "cos(" ++ a.render ++ ")"
  | .deriv a v => "Derivative(" ++ a.render ++ ", " ++ v ++ ")"
  | .convS args => "dConv_s(" ++ renderList args ++ ")"
  | .convV args => "dConv_v(" ++ renderList args ++ ")"
  | .delta k => "dDelta(" ++ k.render ++ ")"
  | .linspace m n => "dLinspace(" ++ m.render ++ ", " ++ n.render ++ ")"
  | .dpow k args => "dPow(" ++ k.render ++ ", " ++ renderList args ++ ")"
where
  renderList : List Ex → String
  | [] => ""
  | [a] => a.render
  | a :: rest => a.render ++ ", " ++ renderList rest

/-- `symbol.name` of a symbol atom (`""` on non-symbols, which never
enter a symbol dictionary). -/
def Ex.symName : Ex → String
  | .var s => s
  | .constM s => s
  | .idxSym s => s
  | .slcSy s => s.render
  | .phiSym a => "phi_" ++ a.render
  | .psiSym a => "psi_" ++ a.render
  | .dt b k => b.symName ++ "[" ++ k.render ++ "]"
  | _ => ""

/-- Structural equality of expressions (sympy `==`). -/
def exBeq : Ex → Ex → Bool
  | .num a, .num b => a == b
  | .var a, .var b => a == b
  | .constM a, .constM b => a == b
  | .phiSym a, .phiSym b => exBeq a b
  | .psiSym a, .psiSym b => exBeq a b
  | .dt a i, .dt b j => exBeq a b && i == j
  | .idxSym a, .idxSym b => a == b
  | .slcSy a, .slcSy b => a == b
  | .add a, .add b => exListBeq a b
  | .mul a, .mul b => exListBeq a b
  | .div a b, .div c d => exBeq a c && exBeq b d
  | .powE a b, .powE c d => exBeq a c && exBeq b d
  | .sinE a, .sinE b => exBeq a b
  | .cosE a, .cosE b => exBeq a b
  | .deriv a v, .deriv b w => exBeq a b && v == w
  | .convS a, .convS b => exListBeq a b
  | .convV a, .convV b => exListBeq a b
  | .delta i, .delta j => i == j
  | .linspace a b, .linspace c d => a == c && b == d
  | .dpow i a, .dpow j b => i == j && exListBeq a b
  | _, _ => false
where
  exListBeq : List Ex → List Ex → Bool
  | [], [] => true
  | a :: as, b :: bs => exBeq a b && exListBeq as bs
  | _, _ => false

/-- The symbol atoms contributed by a DT order (sympy `free_symbols`
descends into the arguments of `dDelta`/`dLinspace`/`dPow` nodes but
treats `DT`/`phi`/`psi`/`Slice` symbols as atoms). -/
def KIdx.freeSymsEx : KIdx → List Ex
  | .pyInt _ => []
  | .sInt _ => []
  | .index s => [.idxSym s]
  | .iexp e => freeOfIExpr e
  | .slice s => [.slcSy s]
where
  freeOfIExpr : IExpr → List Ex
  | .c _ => []
  | .ix s => [.idxSym s]
  | .slcSym s => [.slcSy s]
  | .sym s => [.var s]
  | .add a b => freeOfIExpr a ++ freeOfIExpr b
  | .mul a b => freeOfIExpr a ++ freeOfIExpr b

/-- `expr.free_symbols` as a list in first-occurrence order (sympy
returns a set with unspecified iteration order; the embedding fixes
the traversal order, which no claim depends on). -/
def Ex.freeSyms : Ex → List Ex
  | .num _ => []
  | .var s => [.var s]
  | .constM s => [.constM s]
  | .phiSym a => [.phiSym a]
  | .psiSym a => [.psiSym a]
  | .dt b k => [.dt b k]
  | .idxSym s => [.idxSym s]
  | .slcSy s => [.slcSy s]
  | .add args => freeList args
  | .mul args => freeList args
  | .div a b => a.freeSyms ++ b.freeSyms
  | .powE a b => a.freeSyms ++ b.freeSyms
  | .sinE a => a.freeSyms
  | .cosE a => a.freeSyms
  | .deriv a _ => a.freeSyms
  | .convS args => freeList args
  | .convV args => freeList args
  | .delta k => k.freeSymsEx
  | .linspace m n => m.freeSymsEx ++ n.freeSymsEx
  | .dpow k args => k.freeSymsEx ++ freeList args
where
  freeList : List Ex → List Ex
  | [] => []
  | a :: rest => a.freeSyms ++ freeList rest

/-- Whether a symbol atom is a `DT` (TransformCoefficient) symbol. -/
def Ex.isDT : Ex → Bool
  | .dt _ _ => true
  | _ => false

/-- `any(isinstance(symbol, DT) for symbol in expr.free_symbols)`. -/
def Ex.hasDTFree (e : Ex) : Bool :=
  e.freeSyms.any Ex.isDT

/-- `expr.has(sin, cos)`. -/
def Ex.hasTrig : Ex → Bool
  | .sinE _ => true
  | .cosE _ => true
  | .add args => trigList args
  | .mul args => trigList args
  | .div a b => a.hasTrig || b.hasTrig
  | .powE a b => a.hasTrig || b.hasTrig
  | .deriv a _ => a.hasTrig
  | .convS args => trigList args
  | .convV args => trigList args
  | .dpow _ args => trigList args
  | _ => false
where
  trigList : List Ex → Bool
  | [] => false
  | a :: rest => a.hasTrig || trigList rest

/-- `expr.subs(target, repl)` for a symbol target: replaces every atom
equal to the target, descending into function arguments (symbols are
atomic: sympy does not substitute inside a `phi`/`psi` symbol's `eqn`
attribute or inside a `DT` symbol's index). -/
def subsSym (target repl : Ex) : Ex → Ex
  | .num n => .num n
  | .var s => if exBeq (.var s) target then repl else .var s
  | .constM s => if exBeq (.constM s) target then repl else .constM s
  | .phiSym a => if exBeq (.phiSym a) target then repl else .phiSym a
  | .psiSym a => if exBeq (.psiSym a) target then repl else .psiSym a
  | .dt b k => if exBeq (.dt b k) target then repl else .dt b k
  | .idxSym s => if exBeq (.idxSym s) target then repl else .idxSym s
  | .slcSy s => if exBeq (.slcSy s) target then repl else .slcSy s
  | .add args => .add (subsList target repl args)
  | .mul args => .mul (subsList target repl args)
  | .div a b => .div (subsSym target repl a) (subsSym target repl b)
  | .powE a b => .powE (subsSym target repl a) (subsSym target repl b)
  | .sinE a => .sinE (subsSym target repl a)
  | .cosE a => .cosE (subsSym target repl a)
  | .deriv a v => .deriv (subsSym target repl a) v
  | .convS args => .convS (subsList target repl args)
  | .convV args => .convV (subsList target repl args)
  | .delta k => .delta k
  | .linspace m n => .linspace m n
  | .dpow k args => .dpow k (subsList target repl args)
where
  subsList (target repl : Ex) : List Ex → List Ex
  | [] => []
  | a :: rest => subsSym target repl a :: subsList target repl rest

/-- The node count of an expression (used to size the fuel handed to
the embedded `_dtify`; no theorem depends on the bound's tightness). -/
def Ex.size : Ex → ℕ
  | .num _ => 1
  | .var _ => 1
  | .constM _ => 1
  | .phiSym _ => 1
  | .psiSym _ => 1
  | .dt _ _ => 1
  | .idxSym _ => 1
  | .slcSy _ => 1
  | .add args => 1 + sizeList args
  | .mul args => 1 + sizeList args
  | .div a b => 1 + a.size + b.size
  | .powE a b => 1 + a.size + b.size
  | .sinE a => 1 + a.size
  | .cosE a => 1 + a.size
  | .deriv a _ => 1 + a.size
  | .convS args => 1 + sizeList args
  | .convV args => 1 + sizeList args
  | .delta _ => 1
  | .linspace _ _ => 1
  | .dpow _ args => 1 + sizeList args
where
  sizeList : List Ex → ℕ
  | [] => 0
  | a :: rest => a.size + sizeList rest

/-- Exceptions raised by the driver pipeline after the
already-transformed check. -/
inductive RestErr where
  | rule (e : Err)       -- an exception propagated from `_dtify`/the rules
  | notDtified           -- `TypeError("Support dtified equation only.")` in `k_eqn.__init__`
  | intVarNotImplemented -- `NotImplementedError("Unknown intermediate variable ...")`
  | extractionNotModeled -- artifact: `extract_unknown_term` (`eut=True`) is outside the modeled fragment
deriving DecidableEq, Repr

/-- Exceptions surfaced by `dtify`. -/
inductive DriverErr where
  | alreadyTransformed   -- `TypeError("DT expression cannot be dtified!")`
  | rest (e : RestErr)
deriving DecidableEq, Repr

/-- `symbol_dict = {symbol.name: symbol for symbol in expr.free_symbols}`,
keyed by name (first occurrence wins; sympy's set iteration order is
unspecified, and same-name distinct symbols do not arise in the
claims). -/
def symbolDict (expr : Ex) : List (String × Ex) :=
  expr.freeSyms.foldl
    (fun acc s =>
      if acc.any (fun p => p.1 == s.symName) then acc
      else acc ++ [(s.symName, s)])
    []

/-- The constants-substitution loop of `dtify`: for each listed name
that matches a free symbol, substitute the `Constant`-wrapped symbol;
unknown names hit the `except KeyError: pass` and are skipped. -/
def applyConstants (expr : Ex) (constants : List String) : Ex :=
  let dict := symbolDict expr
  constants.foldl
    (fun e name =>
      match dict.find? (fun p => p.1 == name) with
      | some p => subsSym p.2 (.constM p.2.symName) e
      | none => e)
    expr

/-- The trigonometric substitution pass of `dtify`: every `sin(u)` /
`cos(u)` subterm is replaced (outermost first, without descending into
the replaced argument) by the auxiliary symbol `phi(u)` / `psi(u)`. -/
def replaceTrig : Ex → Ex
  | .sinE u => .phiSym u
  | .cosE u => .psiSym u
  | .add args => .add (replaceList args)
  | .mul args => .mul (replaceList args)
  | .div a b => .div (replaceTrig a) (replaceTrig b)
  | .powE a b => .powE (replaceTrig a) (replaceTrig b)
  | .deriv a v => .deriv (replaceTrig a) v
  | .convS args => .convS (replaceList args)
  | .convV args => .convV (replaceList args)
  | .dpow k args => .dpow k (replaceList args)
  | e => e
where
  replaceList : List Ex → List Ex
  | [] => []
  | a :: rest => replaceTrig a :: replaceList rest

/-- Insertion into the `exprs` dict (insertion order preserved, an
existing key keeps its position and gets the new value). -/
def dictInsert (d : List (Ex × Ex)) (key val : Ex) : List (Ex × Ex) :=
  if d.any (fun p => exBeq p.1 key) then
    d.map (fun p => if exBeq p.1 key then (p.1, val) else p)
  else d ++ [(key, val)]

/-- The auxiliary-equation dictionary built by `dtify` when `etf` is
set: for every free `psi(u)` the defining pairs
`psi(u) ↦ psi(u) - cos(u)` and `phi(u) ↦ phi(u) - sin(u)`, and
symmetrically for every free `phi(u)`. -/
def auxEquations (syms : List Ex) : List (Ex × Ex) :=
  syms.foldl
    (fun d s =>
      match s with
      | .psiSym u =>
        dictInsert
          (dictInsert d (.psiSym u) (exSub (.psiSym u) (.cosE u)))
          (.phiSym u) (exSub (.phiSym u) (.sinE u))
      | .phiSym u =>
        dictInsert
          (dictInsert d (.phiSym u) (exSub (.phiSym u) (.sinE u)))
          (.psiSym u) (exSub (.psiSym u) (.cosE u))
      | _ => d)
    []

/-- Drop the first occurrence of a factor. -/
def removeFirst : List Ex → Ex → List Ex
  | [], _ => []
  | a :: rest, s => if exBeq a s then rest else a :: removeFirst rest s

/-- A syntactic approximation of sympy's `Expr.coeff(symbol)`,
adequate for the linear-in-the-unknown shapes `k_eqn` stores in its
coefficient table: over the top-level sum, the terms containing the
symbol as a direct factor contribute the product of their remaining
factors. -/
def coeffOf (e s : Ex) : Ex :=
  match e with
  | .add args => mkAdd (args.filterMap (coeffTerm s))
  | t => (coeffTerm s t).getD (.num 0)
where
  coeffTerm (s : Ex) : Ex → Option Ex
  | t =>
    if exBeq t s then some (.num 1)
    else match t with
      | .mul args => if args.any (exBeq · s) then some (mkMul (removeFirst args s)) else none
      | _ => none

/-- Evaluation of an order expression with every symbol set to `0`
(`lambdify(list(index_.free_symbols), index_)(0)` in
`obtain_unknown_index`). -/
def IExpr.evalAt0 : IExpr → ℤ
  | .c n => n
  | .ix _ => 0
  | .slcSym _ => 0
  | .sym _ => 0
  | .add a b => a.evalAt0 + b.evalAt0
  | .mul a b => a.evalAt0 * b.evalAt0

/-- The comparison value of a DT index in `obtain_unknown_index`. -/
def KIdx.evalAt0 : KIdx → ℤ
  | .pyInt n => n
  | .sInt n => n
  | .index _ => 0
  | .iexp e => e.evalAt0
  | .slice _ => 0

/-- `k_eqn.obtain_unknown_index`: over the `DT` symbols of the
equation, take each index (a `Slice` index is replaced by its end
bound), evaluate symbolic ones at `0`, and return the first index
attaining the maximal value. -/
def obtainUnknownIndex (syms : List Ex) : Except RestErr KIdx :=
  let idxs := syms.filterMap fun s =>
    match s with
    | .dt _ (.slice sl) => some sl.stop.toK
    | .dt _ k => some k
    | _ => none
  match idxs with
  | [] => .error .notDtified  -- unreachable: guarded by the DT check
  | i :: rest =>
    .ok (rest.foldl (fun best cur =>
      if best.evalAt0 < cur.evalAt0 then cur else best) i)

/-- Upsert into the `COEFF` table (keyed by variable name; a repeated
key keeps its position and takes the latest value, as a Python dict
does). -/
def coeffUpsert (d : List (String × Ex)) (key : String) (val : Ex) :
    List (String × Ex) :=
  if d.any (fun p => p.1 == key) then
    d.map (fun p => if p.1 == key then (p.1, val) else p)
  else d ++ [(key, val)]

/-- A compiled recurrence equation (`k_eqn`): the transformed
expression, its governing order, the known/unknown sides, the
intermediate-variable record, and the coefficient table.  The numeric
evaluators (`lambdify`) belong to the excluded numeric layer. -/
structure KEqn where
  expr : Ex
  k : KIdx
  eut : Bool
  RHS : Ex
  LHS : Ex
  intVar : Option (Ex × Ex)
  coeffs : List (String × Ex)

/-- `k_eqn.__init__`: requires at least one `DT` free symbol, derives
the governing order, splits the equation (`extract_unknown_term` when
`eut` — outside the modeled fragment — else `RHS = 0`, `LHS = expr`),
records the intermediate trig variable, and fills the coefficient
table from the `DT` symbols of the LHS. -/
def mkKEqn (expr : Ex) (eut : Bool) (intVar : Option Ex) : Except RestErr KEqn := do
  let syms := (symbolDict expr).map (·.2)
  if ¬ syms.any Ex.isDT then throw .notDtified
  let k ← obtainUnknownIndex syms
  let (rhs, lhs) ←
    if eut then throw .extractionNotModeled
    else pure ((Ex.num 0), expr)
  let int ← match intVar with
    | none => pure none
    | some (.psiSym u) => pure (some (Ex.psiSym u, Ex.cosE u))
    | some (.phiSym u) => pure (some (Ex.phiSym u, Ex.sinE u))
    | some _ => throw .intVarNotImplemented
  let coeffs := (symbolDict lhs).foldl
    (fun d p =>
      match p.2 with
      | .dt b _ => coeffUpsert d b.symName (coeffOf lhs p.2)
      | _ => d)
    []
  pure { expr := expr, k := k, eut := eut, RHS := rhs, LHS := lhs,
         intVar := int, coeffs := coeffs }

/-- `_dtify` with fuel sized from the input (generous for the
recursion depth; no theorem depends on the bound's tightness). -/
def dtifyTop (expr : Ex) (k : KIdx) : Except Err Ex :=
  dtifyAux (2 * expr.size + 4) expr k

/-- The driver stages after the already-transformed check: default
order `Index('k')`, trigonometric substitution (plus auxiliary
equations when `etf`), `_dtify` dispatch, `k_eqn` packaging.  The
single-equation result is the singleton list. -/
def dtifyRest (expr : Ex) (k : Option KIdx) (etf eut : Bool) :
    Except RestErr (List KEqn) := do
  let k := k.getD (.index "k")
  if expr.hasTrig then
    let expr' := replaceTrig expr
    if etf then do
      let auxs := auxEquations expr'.freeSyms
      let main ← (dtifyTop expr' k).mapError RestErr.rule
      let mainEq ← mkKEqn main eut none
      let auxEqs ← auxs.mapM (fun p => do
        let de ← (dtifyTop p.2 k).mapError RestErr.rule
        mkKEqn de eut (some p.1))
      pure (mainEq :: auxEqs)
    else do
      let de ← (dtifyTop expr' k).mapError RestErr.rule
      let eq ← mkKEqn de eut none
      pure [eq]
  else do
    let de ← (dtifyTop expr k).mapError RestErr.rule
    let eq ← mkKEqn de eut none
    pure [eq]

/-- `dtify(expr, k, etf, eut, constants)`: apply `Constant` marking for
the listed names, reject inputs still containing `DT` symbols
(`TypeError("DT expression cannot be dtified!")`), then run the
remaining pipeline. -/
def dtify (expr : Ex) (k : Option KIdx) (etf eut : Bool)
    (constants : List String) : Except DriverErr (List KEqn) :=
  let expr := applyConstants expr constants
  if expr.hasDTFree then .error .alreadyTransformed
  else (dtifyRest expr k etf eut).mapError DriverErr.rest

lemma applyConstants_nil (expr : Ex) : applyConstants expr [] = expr := rfl

/-- Claim C8, corrected.  `dtify` raises the already-transformed error
exactly when a `DT` symbol remains among the free symbols *after* the
constants substitution.  In particular, with an empty constants list an
input containing a `DT` symbol always fails with this error, and an
input with no `DT` symbol never triggers it — but a constants list
naming a `DT` symbol wraps it as a `Constant` before the check runs and
suppresses the error (see `C8_already_transformed_counterexample`). -/
theorem C8_already_transformed_corrected (expr : Ex) (k : Option KIdx)
    (etf eut : Bool) (cs : List String) :
    ((applyConstants expr cs).hasDTFree = true →
      dtify expr k etf eut cs = .error .alreadyTransformed)
    ∧ ((applyConstants expr cs).hasDTFree = false →
      dtify expr k etf eut cs ≠ .error .alreadyTransformed)
    ∧ (expr.hasDTFree = true →
      dtify expr k etf eut [] = .error .alreadyTransformed)
    ∧ (expr.hasDTFree = false →
      dtify expr k etf eut [] ≠ .error .alreadyTransformed) := by
  have main : ∀ cs' : List String,
      ((applyConstants expr cs').hasDTFree = true →
        dtify expr k etf eut cs' = .error .alreadyTransformed)
      ∧ ((applyConstants expr cs').hasDTFree = false →
        dtify expr k etf eut cs' ≠ .error .alreadyTransformed) := by
    intro cs'
    constructor
    · intro h
      simp [dtify, h]
    · intro h
      simp only [dtify, h, if_neg, Bool.false_eq_true, not_false_eq_true, if_false]
      cases hres : dtifyRest (applyConstants expr cs') k etf eut with
      | ok v => simp [Except.mapError, hres]
      | error e => simp [Except.mapError, hres]
  refine ⟨(main cs).1, (main cs).2, ?_, ?_⟩
  · intro h
    exact (main []).1 (by rwa [applyConstants_nil])
  · intro h
    exact (main []).2 (by rwa [applyConstants_nil])

/-- The claim as stated is false: the input `x[k]` (a bare `DT`
symbol) has a `DT` symbol among its free symbols, yet
`dtify(x[k], constants=['x[k]'])` does not raise the
already-transformed error — the constants pass substitutes the `DT`
symbol away (as a `Constant` named `x[k]`) before the check, and the
call then fails later in `k_eqn` with the different error
`TypeError("Support dtified equation only.")`. -/
theorem C8_already_transformed_counterexample :
    (Ex.dt (.var "x") (.index "k")).hasDTFree = true
    ∧ dtify (Ex.dt (.var "x") (.index "k")) none false false ["x[k]"]
        ≠ .error .alreadyTransformed := by
  refine ⟨rfl, ?_⟩
  intro h
  have hval : dtify (Ex.dt (.var "x") (.index "k")) none false false ["x[k]"]
      = .error (.rest .notDtified) := rfl
  rw [hval] at h
  exact absurd (Except.error.inj h) (by decide)

/-- Witness for `C8_already_transformed_corrected`: a fully
transformed-looking input fails with the already-transformed error,
and a plain-symbol input does not. -/
theorem C8_already_transformed_corrected_witness :
    dtify (Ex.dt (.var "x") (.index "k")) none false false []
        = .error .alreadyTransformed
    ∧ dtify (Ex.var "x") none false false [] ≠ .error .alreadyTransformed :=
  ⟨(C8_already_transformed_corrected (Ex.dt (.var "x") (.index "k"))
      none false false []).2.2.1 rfl,
   (C8_already_transformed_corrected (Ex.var "x") none false false []).2.2.2 rfl⟩

/-- Every name in the symbol dictionary is the name of a free
symbol. -/
lemma symbolDict_names (expr : Ex) :
    ∀ p ∈ symbolDict expr, p.1 ∈ expr.freeSyms.map Ex.symName := by
  have aux : ∀ (l : List Ex) (acc : List (String × Ex)) (p : String × Ex),
      p ∈ l.foldl
        (fun acc s =>
          if acc.any (fun q => q.1 == s.symName) then acc
          else acc ++ [(s.symName, s)]) acc →
      p ∈ acc ∨ p.1 ∈ l.map Ex.symName := by
    intro l
    induction l with
    | nil => intro acc p hp; exact Or.inl hp
    | cons s l ih =>
      intro acc p hp
      rcases ih _ p hp with hstep | hl
      · simp only at hstep
        split at hstep
        · exact Or.inl hstep
        · rcases List.mem_append.mp hstep with hacc | hnew
          · exact Or.inl hacc
          · right
            simp only [List.mem_singleton] at hnew
            subst hnew
            simp [List.map_cons]
      · right
        simp [List.map_cons, hl]
  intro p hp
  rcases aux expr.freeSyms [] p hp with h | h
  · cases h
  · exact h

/-- Claim C10, confirmed.  A constants name that matches no free
symbol of the expression is skipped (`except KeyError: pass`): the
constants substitution, and hence the whole of `dtify`, produce the
same result as without that name, wherever it appears in the list;
only names matching a free symbol get `Constant`-wrapped. -/
theorem C10_unknown_constant_ignored (expr : Ex) (k : Option KIdx)
    (etf eut : Bool) (pre suf : List String) (name : String)
    (h : name ∉ expr.freeSyms.map Ex.symName) :
    applyConstants expr (pre ++ name :: suf) = applyConstants expr (pre ++ suf)
    ∧ dtify expr k etf eut (pre ++ name :: suf)
        = dtify expr k etf eut (pre ++ suf) := by
  have hfind : (symbolDict expr).find? (fun p => p.1 == name) = none := by
    cases hf : (symbolDict expr).find? (fun p => p.1 == name) with
    | none => rfl
    | some p =>
      have hmem := List.mem_of_find?_eq_some hf
      have hpred := List.find?_some hf
      have : p.1 = name := by simpa using hpred
      exact absurd (this ▸ symbolDict_names expr p hmem) h
  have happ : applyConstants expr (pre ++ name :: suf)
      = applyConstants expr (pre ++ suf) := by
    simp only [applyConstants, List.foldl_append, List.foldl_cons, hfind]
  exact ⟨happ, by simp only [dtify, happ]⟩

/-- Witness for `C10_unknown_constant_ignored` at `expr = x`,
constants `["a", "zz"]` versus `["a"]` (`"zz"` matches no free
symbol). -/
theorem C10_unknown_constant_ignored_witness :
    applyConstants (Ex.var "x") (["a"] ++ "zz" :: [])
        = applyConstants (Ex.var "x") (["a"] ++ [])
    ∧ dtify (Ex.var "x") none false false (["a"] ++ "zz" :: [])
        = dtify (Ex.var "x") none false false (["a"] ++ []) :=
  C10_unknown_constant_ignored (Ex.var "x") none false false ["a"] [] "zz"
    (by decide)

/-! ## The convolution flatten operation (claim C4)

`dConv_s._eval_expand_func` / `dConv_v._eval_expand_func` driven by
`expand(func=True, mul=False)` (the form `extract_unknown_term` uses;
the independent `mul` hint never touches convolution nodes).  The
fragment these methods manipulate consists of sums, products, the two
convolution nodes, integer literals, and opaque conv-free subtrees
(coefficient symbols, ramps, …), which the methods never enter — they
are modeled as named atoms.  sympy's `expand` is the bottom-up pass
that expands a node's arguments, rebuilds the node through its
canonicalizing constructor, and then applies `_eval_expand_func` once
(the method itself re-invokes `expand` on everything it builds).  The
Python recursion can diverge (a symbol-multiplied convolution argument
loops forever in the `is_Mul` branch), so the embedding is
fuel-indexed, `none` marking exhaustion. -/

inductive CEx where
  | atom (name : String)   -- an opaque conv-free subtree
  | num (n : ℤ)            -- a sympy integer literal
  | add (args : List CEx)  -- sympy n-ary `Add`
  | mul (args : List CEx)  -- sympy n-ary `Mul`
  | convS (args : List CEx)
  | convV (args : List CEx)

/-- `e.has(dConv_v)`. -/
def CEx.hasConvV : CEx → Bool
  | .convV _ => true
  | .add args => hasList args
  | .mul args => hasList args
  | .convS args => hasList args
  | _ => false
where
  hasList : List CEx → Bool
  | [] => false
  | a :: rest => a.hasConvV || hasList rest

/-- Splice the argument lists of directly nested `Add` nodes
(resp. `Mul` nodes, selected by `flag`). -/
def flatArgsC (isAddNode : Bool) (args : List CEx) : List CEx :=
  args.flatMap fun a =>
    match isAddNode, a with
    | true, .add l => l
    | false, .mul l => l
    | _, x => [x]

/-- The integer literals of an argument list. -/
def numsOf (args : List CEx) : List ℤ :=
  args.filterMap fun a =>
    match a with
    | .num m => some m
    | _ => none

/-- The non-literal arguments. -/
def nonNums (args : List CEx) : List CEx :=
  args.filter fun a =>
    match a with
    | .num _ => false
    | _ => true

/-- Final assembly of a canonicalized `Add` from the merged literal
and the non-literal terms. -/
def addFinish (n : ℤ) (rest : List CEx) : CEx :=
  match (if n = 0 then rest else .num n :: rest) with
  | [] => .num 0
  | [x] => x
  | l => .add l

/-- Final assembly of a canonicalized `Mul`. -/
def mulFinish (n : ℤ) (rest : List CEx) : CEx :=
  if n = 0 then .num 0
  else
    match (if n = 1 then rest else .num n :: rest) with
    | [] => .num 1
    | [x] => x
    | l => .mul l

/-- sympy `Add(*args)` on the flatten fragment (same canonicalization
as `mkAdd`). -/
def mkAddC (args : List CEx) : CEx :=
  addFinish (numsOf (flatArgsC true args)).sum (nonNums (flatArgsC true args))

/-- sympy `Mul(*args)` on the flatten fragment (same canonicalization
as `mkMul`). -/
def mkMulC (args : List CEx) : CEx :=
  mulFinish (numsOf (flatArgsC false args)).prod (nonNums (flatArgsC false args))

/-- The Python `+` operator on the fragment. -/
def exAddC (a b : CEx) : CEx := mkAddC [a, b]

/-- The Python `*` operator on the fragment (`dConv_s.__mul__` /
`dConv_v.__mul__` fold the right factor into the last convolution
argument). -/
def exMulC : CEx → CEx → CEx
  | .convS args, b => .convS (foldLastC args b)
  | .convV args, b => .convV (foldLastC args b)
  | a, b => mkMulC [a, b]
where
  foldLastC : List CEx → CEx → List CEx
  | [], _ => []  -- unreachable: convolution nodes always carry arguments
  | [l], b => [exMulC l b]
  | l :: rest, b => l :: foldLastC rest b

/-- The Python `*` with a plain-`int` left operand (`__rmul__` of the
convolution classes folds it into the first argument). -/
def exRMulNumC (n : ℤ) : CEx → CEx
  | .convS args => .convS (foldFirstC n args)
  | .convV args => .convV (foldFirstC n args)
  | b => mkMulC [.num n, b]
where
  foldFirstC : ℤ → List CEx → List CEx
  | _, [] => []  -- unreachable
  | n, h :: t => exRMulNumC n h :: t

/-- The `is_Mul` branch's rebuild: convert sympy `Integer` factors to
Python ints, then `reduce(lambda a, b: a * b, args)` — the conversion
makes a number-times-convolution trigger `__rmul__` folding. -/
def pyReduceC (margs : List CEx) : CEx :=
  let toPy : CEx → ℤ ⊕ CEx := fun b =>
    match b with
    | .num n => .inl n
    | b => .inr b
  let step : ℤ ⊕ CEx → CEx → ℤ ⊕ CEx := fun acc b =>
    match acc, toPy b with
    | .inl a, .inl b => .inl (a * b)
    | .inl a, .inr e => .inr (exRMulNumC a e)
    | .inr e, .inl b => .inr (exMulC e (.num b))
    | .inr e, .inr f => .inr (exMulC e f)
  match margs with
  | [] => .num 1  -- unreachable: `Mul` nodes have factors
  | m :: rest =>
    match rest.foldl step (toPy m) with
    | .inl n => .num n
    | .inr e => e

/-- `self.func(*args)` for the two convolution classes. -/
def mkConvC (isS : Bool) (args : List CEx) : CEx :=
  if isS then .convS args else .convV args

/-- The first argument (with its position) on which the
`_eval_expand_func` scan acts: the loop takes each argument with
`arg.has(dConv_v)` and fires on the first one that is an `Add`, a
`dConv_v` node, or a `Mul`; others are passed over. -/
inductive CRedex where
  | radd (i : ℕ) (x : CEx) (xs : List CEx)  -- `arg.is_Add`, `as_two_terms`
  | rconv (i : ℕ) (vargs : List CEx)        -- `arg.func == dConv_v`
  | rmul (i : ℕ) (margs : List CEx)         -- `arg.is_Mul`

/-- Scan for the first actionable argument. -/
def findRedexC : ℕ → List CEx → Option CRedex
  | _, [] => none
  | i, a :: rest =>
    if a.hasConvV then
      match a with
      | .add (x :: xs) => some (.radd i x xs)
      | .convV vargs => some (.rconv i vargs)
      | .mul margs => some (.rmul i margs)
      | _ => findRedexC (i + 1) rest
    else findRedexC (i + 1) rest

mutual

/-- `expand(func=True, mul=False)`, the sympy `_expand_hint` pass:
expand the arguments bottom-up, rebuild through the node's
constructor, then apply `_eval_expand_func` on convolution nodes. -/
def expandC : ℕ → CEx → Option CEx
  | 0, _ => none
  | fuel+1, e =>
    match e with
    | .add args => do pure (mkAddC (← expandListC fuel args))
    | .mul args => do pure (mkMulC (← expandListC fuel args))
    | .convS args => do methodC fuel true (← expandListC fuel args)
    | .convV args => do methodC fuel false (← expandListC fuel args)
    | e => pure e

def expandListC : ℕ → List CEx → Option (List CEx)
  | 0, _ => none
  | _+1, [] => pure []
  | fuel+1, a :: rest => do pure ((← expandC fuel a) :: (← expandListC fuel rest))

/-- `dConv_s._eval_expand_func` and the textually identical
`dConv_v._eval_expand_func` (`isS` selects `self.func`): on the first
actionable argument, distribute over a sum (`as_two_terms`), splice a
nested `dConv_v`'s arguments (with the source's index slices
`args[0:i-1] + arg.args + args[0:i+1]` in the middle position), or
rebuild a product through Python `*` so the convolution `__mul__` /
`__rmul__` folding fires; with no actionable argument, return the node
unchanged. -/
def methodC : ℕ → Bool → List CEx → Option CEx
  | 0, _, _ => none
  | fuel+1, isS, args =>
    match findRedexC 0 args with
    | none => pure (mkConvC isS args)
    | some (.radd i x xs) => do
      let r1 ← expandC fuel (mkConvC isS (args.set i x))
      let r2 ← expandC fuel (mkConvC isS (args.set i (mkAddC xs)))
      pure (exAddC r1 r2)
    | some (.rconv i vargs) =>
      if i = 0 then
        expandC fuel (mkConvC isS (vargs ++ args.drop 1))
      else if i = args.length - 1 then
        expandC fuel (mkConvC isS (args.dropLast ++ vargs))
      else
        expandC fuel (mkConvC isS (args.take (i - 1) ++ vargs ++ args.take (i + 1)))
    | some (.rmul i margs) =>
      expandC fuel (mkConvC isS (args.set i (pyReduceC margs)))

end

/-! ### Idempotence of the flatten operation

Strategy: every terminating run of `expandC` produces a tree in
*flatten normal form* (no convolution node has an argument containing
a `dConv_v`) whose `Add`/`Mul` nodes are in the canonical shape the
constructors maintain; and on such trees `expandC` is the identity. -/

/-- Shape tests. -/
def CEx.isAdd : CEx → Bool
  | .add _ => true
  | _ => false

def CEx.isMul : CEx → Bool
  | .mul _ => true
  | _ => false

def CEx.isNum : CEx → Bool
  | .num _ => true
  | _ => false

/-- Flatten normal form: no convolution node has an argument whose
subtree contains a `dConv_v` node. -/
def isNFC : CEx → Bool
  | .add args => nfListC args
  | .mul args => nfListC args
  | .convS args => args.all (fun a => ! a.hasConvV)
  | .convV args => args.all (fun a => ! a.hasConvV)
  | _ => true
where
  nfListC : List CEx → Bool
  | [] => true
  | a :: rest => isNFC a && nfListC rest

/-- Argument-list shape of a canonicalized `Add`: at least two terms,
no nested sums, integer literals merged into at most one non-zero
leading literal. -/
def okAddL (args : List CEx) : Bool :=
  decide (2 ≤ args.length) && args.all (fun x => ! x.isAdd)
    && args.tail.all (fun x => ! x.isNum)
    && (match args.head? with
        | some (.num n) => decide (n ≠ 0)
        | _ => true)

/-- Argument-list shape of a canonicalized `Mul`: at least two
factors, no nested products, integer literals merged into at most one
leading literal that is neither `0` nor `1`. -/
def okMulL (args : List CEx) : Bool :=
  decide (2 ≤ args.length) && args.all (fun x => ! x.isMul)
    && args.tail.all (fun x => ! x.isNum)
    && (match args.head? with
        | some (.num n) => decide (n ≠ 0 ∧ n ≠ 1)
        | _ => true)

/-- The canonical-form invariant every sympy-built tree satisfies
(`Add`/`Mul` are flat, with merged literals). -/
def isCanonC : CEx → Bool
  | .add args => okAddL args && canonLC args
  | .mul args => okMulL args && canonLC args
  | .convS args => canonLC args
  | .convV args => canonLC args
  | _ => true
where
  canonLC : List CEx → Bool
  | [] => true
  | a :: rest => isCanonC a && canonLC rest

/-- Fuel sufficient for `expandC` to traverse a tree that is already
in normal form. -/
def needC : CEx → ℕ
  | .add args => 1 + needLC args
  | .mul args => 1 + needLC args
  | .convS args => 1 + needLC args
  | .convV args => 1 + needLC args
  | _ => 1
where
  needLC : List CEx → ℕ
  | [] => 1
  | a :: rest => 1 + max (needC a) (needLC rest)

lemma nfListC_eq_all (l : List CEx) : isNFC.nfListC l = l.all isNFC := by
  induction l with
  | nil => rfl
  | cons a rest ih => simp [isNFC.nfListC, ih]

lemma canonLC_eq_all (l : List CEx) : isCanonC.canonLC l = l.all isCanonC := by
  induction l with
  | nil => rfl
  | cons a rest ih => simp [isCanonC.canonLC, ih]

lemma hasListC_eq_any (l : List CEx) :
    CEx.hasConvV.hasList l = l.any CEx.hasConvV := by
  induction l with
  | nil => rfl
  | cons a rest ih => simp [CEx.hasConvV.hasList, ih]

lemma one_le_needLC (l : List CEx) : 1 ≤ needC.needLC l := by
  cases l <;> simp [needC.needLC]

lemma needC_mem_le (l : List CEx) (a : CEx) (ha : a ∈ l) :
    needC a ≤ needC.needLC l := by
  induction l with
  | nil => cases ha
  | cons b rest ih =>
    rcases List.mem_cons.mp ha with rfl | ha'
    · simp [needC.needLC]
      omega
    · have := ih ha'
      simp [needC.needLC]
      omega

/-- Node count (for the strong induction below). -/
def sizeC : CEx → ℕ
  | .add args => 1 + sizeLC args
  | .mul args => 1 + sizeLC args
  | .convS args => 1 + sizeLC args
  | .convV args => 1 + sizeLC args
  | _ => 1
where
  sizeLC : List CEx → ℕ
  | [] => 0
  | a :: rest => sizeC a + sizeLC rest

lemma one_le_sizeC (e : CEx) : 1 ≤ sizeC e := by
  cases e <;> simp [sizeC]

lemma sizeC_mem_le (l : List CEx) (a : CEx) (ha : a ∈ l) :
    sizeC a ≤ sizeC.sizeLC l := by
  induction l with
  | nil => cases ha
  | cons b rest ih =>
    rcases List.mem_cons.mp ha with rfl | ha'
    · simp [sizeC.sizeLC]
    · have := ih ha'
      simp [sizeC.sizeLC]
      omega

/-- A conv-free tree is vacuously in flatten normal form. -/
lemma noConvV_isNF : ∀ (N : ℕ) (e : CEx), sizeC e ≤ N →
    e.hasConvV = false → isNFC e = true := by
  intro N
  induction N with
  | zero =>
    intro e he _
    have := one_le_sizeC e
    omega
  | succ N ih =>
    intro e he hc
    cases e with
    | atom s => rfl
    | num n => rfl
    | add args =>
      have hargs : ∀ a ∈ args, a.hasConvV = false := by
        have h1 : CEx.hasConvV.hasList args = false := by
          simpa [CEx.hasConvV] using hc
        rw [hasListC_eq_any] at h1
        intro a ha
        simpa using List.any_eq_false.mp (by simpa using h1) a ha
      show isNFC (.add args) = true
      simp only [isNFC, nfListC_eq_all, List.all_eq_true]
      intro a ha
      refine ih a ?_ (hargs a ha)
      have h2 := sizeC_mem_le args a ha
      simp only [sizeC] at he
      omega
    | mul args =>
      have hargs : ∀ a ∈ args, a.hasConvV = false := by
        have h1 : CEx.hasConvV.hasList args = false := by
          simpa [CEx.hasConvV] using hc
        rw [hasListC_eq_any] at h1
        intro a ha
        simpa using List.any_eq_false.mp (by simpa using h1) a ha
      show isNFC (.mul args) = true
      simp only [isNFC, nfListC_eq_all, List.all_eq_true]
      intro a ha
      refine ih a ?_ (hargs a ha)
      have h2 := sizeC_mem_le args a ha
      simp only [sizeC] at he
      omega
    | convS args =>
      have h1 : CEx.hasConvV.hasList args = false := by
        simpa [CEx.hasConvV] using hc
      rw [hasListC_eq_any] at h1
      show isNFC (.convS args) = true
      simp only [isNFC, List.all_eq_true]
      intro a ha
      simpa using List.any_eq_false.mp (by simpa using h1) a ha
    | convV args => simp [CEx.hasConvV] at hc

/-! Facts about the canonicalizing constructors. -/

lemma flatArgsC_add_id (args : List CEx) (h : ∀ x ∈ args, x.isAdd = false) :
    flatArgsC true args = args := by
  induction args with
  | nil => rfl
  | cons a rest ih =>
    have ha := h a (List.mem_cons_self a rest)
    have hrest := ih fun x hx => h x (List.mem_cons_of_mem a hx)
    cases a <;> simp_all [flatArgsC, CEx.isAdd]

lemma flatArgsC_mul_id (args : List CEx) (h : ∀ x ∈ args, x.isMul = false) :
    flatArgsC false args = args := by
  induction args with
  | nil => rfl
  | cons a rest ih =>
    have ha := h a (List.mem_cons_self a rest)
    have hrest := ih fun x hx => h x (List.mem_cons_of_mem a hx)
    cases a <;> simp_all [flatArgsC, CEx.isMul]

lemma numsOf_nil_of (l : List CEx) (h : ∀ x ∈ l, x.isNum = false) :
    numsOf l = [] := by
  induction l with
  | nil => rfl
  | cons a rest ih =>
    have ha := h a (List.mem_cons_self a rest)
    have hrest := ih fun x hx => h x (List.mem_cons_of_mem a hx)
    cases a <;> simp_all [numsOf, CEx.isNum]

lemma nonNums_id_of (l : List CEx) (h : ∀ x ∈ l, x.isNum = false) :
    nonNums l = l := by
  induction l with
  | nil => rfl
  | cons a rest ih =>
    have ha := h a (List.mem_cons_self a rest)
    have hrest := ih fun x hx => h x (List.mem_cons_of_mem a hx)
    cases a <;> simp_all [nonNums, CEx.isNum]

lemma mem_nonNums (l : List CEx) (b : CEx) (hb : b ∈ nonNums l) :
    b ∈ l ∧ b.isNum = false := by
  unfold nonNums at hb
  have := List.mem_filter.mp hb
  refine ⟨this.1, ?_⟩
  cases b <;> simp_all [CEx.isNum]

/-- Rebuilding an already-canonical `Add` argument list through the
constructor is the identity. -/
lemma mkAddC_of_ok (args : List CEx) (h : okAddL args = true) :
    mkAddC args = .add args := by
  simp only [okAddL, Bool.and_eq_true, decide_eq_true_eq, List.all_eq_true] at h
  obtain ⟨⟨⟨hlen, hnoadd⟩, htail⟩, hhead⟩ := h
  have hnoadd' : ∀ x ∈ args, x.isAdd = false := by
    intro x hx
    simpa using hnoadd x hx
  have htail' : ∀ x ∈ args.tail, x.isNum = false := by
    intro x hx
    simpa using htail x hx
  have hflat : flatArgsC true args = args := flatArgsC_add_id args hnoadd'
  unfold mkAddC
  rw [hflat]
  match args, hlen with
  | a :: b :: t, _ =>
    have htbt : ∀ x ∈ b :: t, x.isNum = false := htail'
    cases a with
    | num n =>
      have hn : n ≠ 0 := by simpa using hhead
      rw [show numsOf (CEx.num n :: b :: t) = n :: numsOf (b :: t) from rfl,
        numsOf_nil_of _ htbt,
        show nonNums (CEx.num n :: b :: t) = nonNums (b :: t) from rfl,
        nonNums_id_of _ htbt]
      simp [addFinish, hn]
    | atom s =>
      have hall : ∀ x ∈ CEx.atom s :: b :: t, x.isNum = false := by
        intro x hx
        rcases List.mem_cons.mp hx with rfl | hx'
        · rfl
        · exact htbt x hx'
      rw [numsOf_nil_of _ hall, nonNums_id_of _ hall]
      simp [addFinish]
    | mul l =>
      have hall : ∀ x ∈ CEx.mul l :: b :: t, x.isNum = false := by
        intro x hx
        rcases List.mem_cons.mp hx with rfl | hx'
        · rfl
        · exact htbt x hx'
      rw [numsOf_nil_of _ hall, nonNums_id_of _ hall]
      simp [addFinish]
    | convS l =>
      have hall : ∀ x ∈ CEx.convS l :: b :: t, x.isNum = false := by
        intro x hx
        rcases List.mem_cons.mp hx with rfl | hx'
        · rfl
        · exact htbt x hx'
      rw [numsOf_nil_of _ hall, nonNums_id_of _ hall]
      simp [addFinish]
    | convV l =>
      have hall : ∀ x ∈ CEx.convV l :: b :: t, x.isNum = false := by
        intro x hx
        rcases List.mem_cons.mp hx with rfl | hx'
        · rfl
        · exact htbt x hx'
      rw [numsOf_nil_of _ hall, nonNums_id_of _ hall]
      simp [addFinish]
    | add l =>
      exact absurd (hnoadd' (.add l) (List.mem_cons_self _ _)) (by simp [CEx.isAdd])

/-- Rebuilding an already-canonical `Mul` argument list through the
constructor is the identity. -/
lemma mkMulC_of_ok (args : List CEx) (h : okMulL args = true) :
    mkMulC args = .mul args := by
  simp only [okMulL, Bool.and_eq_true, decide_eq_true_eq, List.all_eq_true] at h
  obtain ⟨⟨⟨hlen, hnomul⟩, htail⟩, hhead⟩ := h
  have hnomul' : ∀ x ∈ args, x.isMul = false := by
    intro x hx
    simpa using hnomul x hx
  have htail' : ∀ x ∈ args.tail, x.isNum = false := by
    intro x hx
    simpa using htail x hx
  have hflat : flatArgsC false args = args := flatArgsC_mul_id args hnomul'
  unfold mkMulC
  rw [hflat]
  match args, hlen with
  | a :: b :: t, _ =>
    have htbt : ∀ x ∈ b :: t, x.isNum = false := htail'
    cases a with
    | num n =>
      have hn : n ≠ 0 ∧ n ≠ 1 := by simpa using hhead
      rw [show numsOf (CEx.num n :: b :: t) = n :: numsOf (b :: t) from rfl,
        numsOf_nil_of _ htbt,
        show nonNums (CEx.num n :: b :: t) = nonNums (b :: t) from rfl,
        nonNums_id_of _ htbt]
      simp [mulFinish, hn.1, hn.2]
    | atom s =>
      have hall : ∀ x ∈ CEx.atom s :: b :: t, x.isNum = false := by
        intro x hx
        rcases List.mem_cons.mp hx with rfl | hx'
        · rfl
        · exact htbt x hx'
      rw [numsOf_nil_of _ hall, nonNums_id_of _ hall]
      simp [mulFinish]
    | add l =>
      have hall : ∀ x ∈ CEx.add l :: b :: t, x.isNum = false := by
        intro x hx
        rcases List.mem_cons.mp hx with rfl | hx'
        · rfl
        · exact htbt x hx'
      rw [numsOf_nil_of _ hall, nonNums_id_of _ hall]
      simp [mulFinish]
    | convS l =>
      have hall : ∀ x ∈ CEx.convS l :: b :: t, x.isNum = false := by
        intro x hx
        rcases List.mem_cons.mp hx with rfl | hx'
        · rfl
        · exact htbt x hx'
      rw [numsOf_nil_of _ hall, nonNums_id_of _ hall]
      simp [mulFinish]
    | convV l =>
      have hall : ∀ x ∈ CEx.convV l :: b :: t, x.isNum = false := by
        intro x hx
        rcases List.mem_cons.mp hx with rfl | hx'
        · rfl
        · exact htbt x hx'
      rw [numsOf_nil_of _ hall, nonNums_id_of _ hall]
      simp [mulFinish]
    | mul l =>
      exact absurd (hnomul' (.mul l) (List.mem_cons_self _ _)) (by simp [CEx.isMul])

/-- Flattening preserves normal form and canonicity and leaves no
directly nested `Add`. -/
lemma flatArgsC_add_keep (args : List CEx)
    (h : ∀ a ∈ args, isNFC a = true ∧ isCanonC a = true) :
    ∀ b ∈ flatArgsC true args,
      isNFC b = true ∧ isCanonC b = true ∧ b.isAdd = false := by
  intro b hb
  unfold flatArgsC at hb
  obtain ⟨a, ha, hbf⟩ := List.mem_flatMap.mp hb
  obtain ⟨hna, hca⟩ := h a ha
  cases a with
  | add l' =>
    have hbl : b ∈ l' := by simpa using hbf
    have hok : okAddL l' = true ∧ isCanonC.canonLC l' = true := by
      simpa [isCanonC, Bool.and_eq_true] using hca
    have hnl : isNFC.nfListC l' = true := by simpa [isNFC] using hna
    rw [nfListC_eq_all, List.all_eq_true] at hnl
    have hcl := hok.2
    rw [canonLC_eq_all, List.all_eq_true] at hcl
    have hnoadd : ∀ x ∈ l', x.isAdd = false := by
      have := hok.1
      simp only [okAddL, Bool.and_eq_true, List.all_eq_true] at this
      intro x hx
      simpa using this.1.1.2 x hx
    exact ⟨hnl b hbl, hcl b hbl, hnoadd b hbl⟩
  | atom s =>
    have : b = .atom s := by simpa using hbf
    subst this
    exact ⟨hna, hca, rfl⟩
  | num n =>
    have : b = .num n := by simpa using hbf
    subst this
    exact ⟨hna, hca, rfl⟩
  | mul l' =>
    have : b = .mul l' := by simpa using hbf
    subst this
    exact ⟨hna, hca, rfl⟩
  | convS l' =>
    have : b = .convS l' := by simpa using hbf
    subst this
    exact ⟨hna, hca, rfl⟩
  | convV l' =>
    have : b = .convV l' := by simpa using hbf
    subst this
    exact ⟨hna, hca, rfl⟩

/-- Flattening preserves normal form and canonicity and leaves no
directly nested `Mul`. -/
lemma flatArgsC_mul_keep (args : List CEx)
    (h : ∀ a ∈ args, isNFC a = true ∧ isCanonC a = true) :
    ∀ b ∈ flatArgsC false args,
      isNFC b = true ∧ isCanonC b = true ∧ b.isMul = false := by
  intro b hb
  unfold flatArgsC at hb
  obtain ⟨a, ha, hbf⟩ := List.mem_flatMap.mp hb
  obtain ⟨hna, hca⟩ := h a ha
  cases a with
  | mul l' =>
    have hbl : b ∈ l' := by simpa using hbf
    have hok : okMulL l' = true ∧ isCanonC.canonLC l' = true := by
      simpa [isCanonC, Bool.and_eq_true] using hca
    have hnl : isNFC.nfListC l' = true := by simpa [isNFC] using hna
    rw [nfListC_eq_all, List.all_eq_true] at hnl
    have hcl := hok.2
    rw [canonLC_eq_all, List.all_eq_true] at hcl
    have hnomul : ∀ x ∈ l', x.isMul = false := by
      have := hok.1
      simp only [okMulL, Bool.and_eq_true, List.all_eq_true] at this
      intro x hx
      simpa using this.1.1.2 x hx
    exact ⟨hnl b hbl, hcl b hbl, hnomul b hbl⟩
  | atom s =>
    have : b = .atom s := by simpa using hbf
    subst this
    exact ⟨hna, hca, rfl⟩
  | num n =>
    have : b = .num n := by simpa using hbf
    subst this
    exact ⟨hna, hca, rfl⟩
  | add l' =>
    have : b = .add l' := by simpa using hbf
    subst this
    exact ⟨hna, hca, rfl⟩
  | convS l' =>
    have : b = .convS l' := by simpa using hbf
    subst this
    exact ⟨hna, hca, rfl⟩
  | convV l' =>
    have : b = .convV l' := by simpa using hbf
    subst this
    exact ⟨hna, hca, rfl⟩

/-- The `Add` assembly keeps normal form and canonicity. -/
lemma addFinish_keep (n : ℤ) (rest : List CEx)
    (h : ∀ b ∈ rest, isNFC b = true ∧ isCanonC b = true
      ∧ b.isAdd = false ∧ b.isNum = false) :
    isNFC (addFinish n rest) = true ∧ isCanonC (addFinish n rest) = true := by
  have hcons : ∀ (x : CEx) (t : List CEx), x ∈ rest → (∀ y ∈ t, y ∈ rest) →
      2 ≤ (x :: t).length + 1 →
      isNFC (.add (.num n :: x :: t)) = true
      ∧ isCanonC (.add (.num n :: x :: t)) = true → True := fun _ _ _ _ _ _ => trivial
  by_cases hn : n = 0
  · subst hn
    show isNFC (addFinish 0 rest) = true ∧ isCanonC (addFinish 0 rest) = true
    unfold addFinish
    simp only [if_pos rfl]
    match rest, h with
    | [], _ => exact ⟨rfl, rfl⟩
    | [x], h => exact ⟨(h x (by simp)).1, (h x (by simp)).2.1⟩
    | x :: y :: t, h =>
      constructor
      · show isNFC (.add (x :: y :: t)) = true
        simp only [isNFC, nfListC_eq_all, List.all_eq_true]
        intro b hb
        exact (h b hb).1
      · show isCanonC (.add (x :: y :: t)) = true
        simp only [isCanonC, Bool.and_eq_true, canonLC_eq_all, List.all_eq_true]
        refine ⟨?_, fun b hb => (h b hb).2.1⟩
        simp only [okAddL, Bool.and_eq_true, decide_eq_true_eq, List.all_eq_true]
        refine ⟨⟨⟨by simp, fun b hb => by simp [(h b hb).2.2.1]⟩, ?_⟩, ?_⟩
        · intro b hb
          have : b ∈ x :: y :: t := List.mem_cons_of_mem x hb
          simp [(h b this).2.2.2]
        · have hx := (h x (by simp)).2.2.2
          cases x <;> simp_all [CEx.isNum]
  · unfold addFinish
    simp only [if_neg hn]
    match rest, h with
    | [], _ => exact ⟨rfl, rfl⟩
    | x :: t, h =>
      constructor
      · show isNFC (.add (.num n :: x :: t)) = true
        simp only [isNFC, nfListC_eq_all, List.all_eq_true]
        intro b hb
        rcases List.mem_cons.mp hb with rfl | hb'
        · rfl
        · exact (h b hb').1
      · show isCanonC (.add (.num n :: x :: t)) = true
        simp only [isCanonC, Bool.and_eq_true, canonLC_eq_all, List.all_eq_true]
        constructor
        · simp only [okAddL, Bool.and_eq_true, decide_eq_true_eq, List.all_eq_true]
          refine ⟨⟨⟨by simp, ?_⟩, ?_⟩, by simp [hn]⟩
          · intro b hb
            rcases List.mem_cons.mp hb with rfl | hb'
            · simp [CEx.isAdd]
            · simp [(h b hb').2.2.1]
          · intro b hb
            simp [(h b hb).2.2.2]
        · intro b hb
          rcases List.mem_cons.mp hb with rfl | hb'
          · rfl
          · exact (h b hb').2.1

/-- The `Mul` assembly keeps normal form and canonicity. -/
lemma mulFinish_keep (n : ℤ) (rest : List CEx)
    (h : ∀ b ∈ rest, isNFC b = true ∧ isCanonC b = true
      ∧ b.isMul = false ∧ b.isNum = false) :
    isNFC (mulFinish n rest) = true ∧ isCanonC (mulFinish n rest) = true := by
  by_cases hn : n = 0
  · subst hn
    exact ⟨rfl, rfl⟩
  · unfold mulFinish
    simp only [if_neg hn]
    by_cases h1 : n = 1
    · subst h1
      simp only [if_pos rfl]
      match rest, h with
      | [], _ => exact ⟨rfl, rfl⟩
      | [x], h => exact ⟨(h x (by simp)).1, (h x (by simp)).2.1⟩
      | x :: y :: t, h =>
        constructor
        · show isNFC (.mul (x :: y :: t)) = true
          simp only [isNFC, nfListC_eq_all, List.all_eq_true]
          intro b hb
          exact (h b hb).1
        · show isCanonC (.mul (x :: y :: t)) = true
          simp only [isCanonC, Bool.and_eq_true, canonLC_eq_all, List.all_eq_true]
          refine ⟨?_, fun b hb => (h b hb).2.1⟩
          simp only [okMulL, Bool.and_eq_true, decide_eq_true_eq, List.all_eq_true]
          refine ⟨⟨⟨by simp, fun b hb => by simp [(h b hb).2.2.1]⟩, ?_⟩, ?_⟩
          · intro b hb
            have : b ∈ x :: y :: t := List.mem_cons_of_mem x hb
            simp [(h b this).2.2.2]
          · have hx := (h x (by simp)).2.2.2
            cases x <;> simp_all [CEx.isNum]
    · simp only [if_neg h1]
      match rest, h with
      | [], _ => exact ⟨rfl, rfl⟩
      | x :: t, h =>
        constructor
        · show isNFC (.mul (.num n :: x :: t)) = true
          simp only [isNFC, nfListC_eq_all, List.all_eq_true]
          intro b hb
          rcases List.mem_cons.mp hb with rfl | hb'
          · rfl
          · exact (h b hb').1
        · show isCanonC (.mul (.num n :: x :: t)) = true
          simp only [isCanonC, Bool.and_eq_true, canonLC_eq_all, List.all_eq_true]
          constructor
          · simp only [okMulL, Bool.and_eq_true, decide_eq_true_eq, List.all_eq_true]
            refine ⟨⟨⟨by simp, ?_⟩, ?_⟩, by simp [hn, h1]⟩
            · intro b hb
              rcases List.mem_cons.mp hb with rfl | hb'
              · simp [CEx.isMul]
              · simp [(h b hb').2.2.1]
            · intro b hb
              simp [(h b hb).2.2.2]
          · intro b hb
            rcases List.mem_cons.mp hb with rfl | hb'
            · rfl
            · exact (h b hb').2.1

/-- `Add(*args)` keeps normal form and canonicity. -/
lemma mkAddC_keep (l : List CEx)
    (h : ∀ a ∈ l, isNFC a = true ∧ isCanonC a = true) :
    isNFC (mkAddC l) = true ∧ isCanonC (mkAddC l) = true := by
  unfold mkAddC
  apply addFinish_keep
  intro b hb
  have hb' := mem_nonNums _ b hb
  have hkeep := flatArgsC_add_keep l h b hb'.1
  exact ⟨hkeep.1, hkeep.2.1, hkeep.2.2, hb'.2⟩

/-- `Mul(*args)` keeps normal form and canonicity. -/
lemma mkMulC_keep (l : List CEx)
    (h : ∀ a ∈ l, isNFC a = true ∧ isCanonC a = true) :
    isNFC (mkMulC l) = true ∧ isCanonC (mkMulC l) = true := by
  unfold mkMulC
  apply mulFinish_keep
  intro b hb
  have hb' := mem_nonNums _ b hb
  have hkeep := flatArgsC_mul_keep l h b hb'.1
  exact ⟨hkeep.1, hkeep.2.1, hkeep.2.2, hb'.2⟩

/-- The scan finds nothing on a conv-free argument list. -/
lemma findRedexC_none_of (i : ℕ) (args : List CEx)
    (h : ∀ a ∈ args, a.hasConvV = false) : findRedexC i args = none := by
  induction args generalizing i with
  | nil => rfl
  | cons a rest ih =>
    have ha := h a (List.mem_cons_self a rest)
    unfold findRedexC
    rw [ha]
    exact ih (i + 1) fun x hx => h x (List.mem_cons_of_mem a hx)

/-- If the scan finds nothing on a list of normal-form arguments, the
list is conv-free. -/
lemma findRedexC_none_elim (i : ℕ) (args : List CEx)
    (hnone : findRedexC i args = none)
    (hnf : ∀ a ∈ args, isNFC a = true) :
    ∀ a ∈ args, a.hasConvV = false := by
  induction args generalizing i with
  | nil => intro a ha; cases ha
  | cons a rest ih =>
    intro b hb
    unfold findRedexC at hnone
    by_cases hc : a.hasConvV = true
    · rw [hc] at hnone
      simp only [if_true] at hnone
      exfalso
      cases a with
      | atom s => simp [CEx.hasConvV] at hc
      | num n => simp [CEx.hasConvV] at hc
      | convV l => cases hnone
      | mul l => cases hnone
      | add l =>
        cases l with
        | nil => simp [CEx.hasConvV, CEx.hasConvV.hasList] at hc
        | cons x xs => cases hnone
      | convS l =>
        have hnfa := hnf (.convS l) (List.mem_cons_self _ _)
        simp only [isNFC, List.all_eq_true] at hnfa
        have : CEx.hasConvV.hasList l = false := by
          rw [hasListC_eq_any]
          apply List.any_eq_false.mpr
          intro x hx
          simpa using hnfa x hx
        simp [CEx.hasConvV, this] at hc
    · have hc' : a.hasConvV = false := by
        cases hca : a.hasConvV
        · rfl
        · exact absurd hca hc
      rw [hc'] at hnone
      simp only [Bool.false_eq_true, if_false] at hnone
      rcases List.mem_cons.mp hb with rfl | hb'
      · exact hc'
      · exact ih (i + 1) hnone (fun x hx => hnf x (List.mem_cons_of_mem a hx)) b hb'

lemma one_le_needC (e : CEx) : 1 ≤ needC e := by
  cases e <;> simp only [needC] <;> omega

/-- Stability: on a tree already in flatten normal form and canonical
shape, the expand pass is the identity (given enough fuel to traverse
it). -/
lemma expandC_id_all (fuel : ℕ) :
    (∀ e, isNFC e = true → isCanonC e = true → needC e ≤ fuel →
      expandC fuel e = some e)
    ∧ (∀ l, (∀ a ∈ l, isNFC a = true ∧ isCanonC a = true) →
      needC.needLC l ≤ fuel → expandListC fuel l = some l) := by
  induction fuel with
  | zero =>
    constructor
    · intro e _ _ hf
      exact absurd hf (by have := one_le_needC e; omega)
    · intro l _ hf
      exact absurd hf (by have := one_le_needLC l; omega)
  | succ fuel ih =>
    obtain ⟨ihE, ihL⟩ := ih
    constructor
    · intro e hnf hcanon hfuel
      cases e with
      | atom s => rfl
      | num n => rfl
      | add args =>
        have hargs : ∀ a ∈ args, isNFC a = true ∧ isCanonC a = true := by
          intro a ha
          have h1 : isNFC.nfListC args = true := by simpa [isNFC] using hnf
          have h2 : isCanonC.canonLC args = true := by
            simp only [isCanonC, Bool.and_eq_true] at hcanon
            exact hcanon.2
          rw [nfListC_eq_all, List.all_eq_true] at h1
          rw [canonLC_eq_all, List.all_eq_true] at h2
          exact ⟨h1 a ha, h2 a ha⟩
        have hneed : needC.needLC args ≤ fuel := by
          simp only [needC] at hfuel
          omega
        have hok : okAddL args = true := by
          simp only [isCanonC, Bool.and_eq_true] at hcanon
          exact hcanon.1
        simp [expandC, ihL args hargs hneed, mkAddC_of_ok args hok]
      | mul args =>
        have hargs : ∀ a ∈ args, isNFC a = true ∧ isCanonC a = true := by
          intro a ha
          have h1 : isNFC.nfListC args = true := by simpa [isNFC] using hnf
          have h2 : isCanonC.canonLC args = true := by
            simp only [isCanonC, Bool.and_eq_true] at hcanon
            exact hcanon.2
          rw [nfListC_eq_all, List.all_eq_true] at h1
          rw [canonLC_eq_all, List.all_eq_true] at h2
          exact ⟨h1 a ha, h2 a ha⟩
        have hneed : needC.needLC args ≤ fuel := by
          simp only [needC] at hfuel
          omega
        have hok : okMulL args = true := by
          simp only [isCanonC, Bool.and_eq_true] at hcanon
          exact hcanon.1
        simp [expandC, ihL args hargs hneed, mkMulC_of_ok args hok]
      | convS args =>
        have hfree : ∀ a ∈ args, a.hasConvV = false := by
          have h1 : args.all (fun a => ! a.hasConvV) = true := by
            simpa [isNFC] using hnf
          rw [List.all_eq_true] at h1
          intro a ha
          simpa using h1 a ha
        have hargs : ∀ a ∈ args, isNFC a = true ∧ isCanonC a = true := by
          intro a ha
          have h2 : isCanonC.canonLC args = true := by simpa [isCanonC] using hcanon
          rw [canonLC_eq_all, List.all_eq_true] at h2
          exact ⟨noConvV_isNF (sizeC a) a le_rfl (hfree a ha), h2 a ha⟩
        have hneed : needC.needLC args ≤ fuel := by
          simp only [needC] at hfuel
          omega
        have hone : 1 ≤ fuel := le_trans (one_le_needLC args) hneed
        obtain ⟨f, rfl⟩ : ∃ f, fuel = f + 1 := ⟨fuel - 1, by omega⟩
        have hmeth : methodC (f + 1) true args = some (.convS args) := by
          simp [methodC, findRedexC_none_of 0 args hfree, mkConvC]
        simp [expandC, ihL args hargs hneed, hmeth]
      | convV args =>
        have hfree : ∀ a ∈ args, a.hasConvV = false := by
          have h1 : args.all (fun a => ! a.hasConvV) = true := by
            simpa [isNFC] using hnf
          rw [List.all_eq_true] at h1
          intro a ha
          simpa using h1 a ha
        have hargs : ∀ a ∈ args, isNFC a = true ∧ isCanonC a = true := by
          intro a ha
          have h2 : isCanonC.canonLC args = true := by simpa [isCanonC] using hcanon
          rw [canonLC_eq_all, List.all_eq_true] at h2
          exact ⟨noConvV_isNF (sizeC a) a le_rfl (hfree a ha), h2 a ha⟩
        have hneed : needC.needLC args ≤ fuel := by
          simp only [needC] at hfuel
          omega
        have hone : 1 ≤ fuel := le_trans (one_le_needLC args) hneed
        obtain ⟨f, rfl⟩ : ∃ f, fuel = f + 1 := ⟨fuel - 1, by omega⟩
        have hmeth : methodC (f + 1) false args = some (.convV args) := by
          simp [methodC, findRedexC_none_of 0 args hfree, mkConvC]
        simp [expandC, ihL args hargs hneed, hmeth]
    · intro l hmem hfuel
      cases l with
      | nil => rfl
      | cons a rest =>
        have hfa : needC a ≤ fuel := by
          simp only [needC.needLC] at hfuel
          omega
        have hfr : needC.needLC rest ≤ fuel := by
          simp only [needC.needLC] at hfuel
          omega
        have ha := hmem a (List.mem_cons_self a rest)
        simp [expandListC, ihE a ha.1 ha.2 hfa,
          ihL rest (fun x hx => hmem x (List.mem_cons_of_mem a hx)) hfr]

/-- The Python `+` of two normal-form canonical trees is normal-form
canonical. -/
lemma exAddC_keep (a b : CEx)
    (ha : isNFC a = true ∧ isCanonC a = true)
    (hb : isNFC b = true ∧ isCanonC b = true) :
    isNFC (exAddC a b) = true ∧ isCanonC (exAddC a b) = true := by
  unfold exAddC
  apply mkAddC_keep
  intro x hx
  rcases List.mem_cons.mp hx with rfl | hx'
  · exact ha
  · rcases List.mem_cons.mp hx' with rfl | hx''
    · exact hb
    · cases hx''

/-- Normalization: every result a terminating run of the expand pass
returns is in flatten normal form and canonical. -/
lemma expandC_nf_all (fuel : ℕ) :
    (∀ e r, expandC fuel e = some r → isNFC r = true ∧ isCanonC r = true)
    ∧ (∀ l rs, expandListC fuel l = some rs →
        ∀ a ∈ rs, isNFC a = true ∧ isCanonC a = true)
    ∧ (∀ (isS : Bool) (args : List CEx) (r : CEx),
        (∀ a ∈ args, isNFC a = true ∧ isCanonC a = true) →
        methodC fuel isS args = some r →
        isNFC r = true ∧ isCanonC r = true) := by
  induction fuel with
  | zero =>
    refine ⟨?_, ?_, ?_⟩
    · intro e r h
      cases h
    · intro l rs h
      cases h
    · intro isS args r _ h
      cases h
  | succ fuel ih =>
    obtain ⟨ihE, ihL, ihM⟩ := ih
    refine ⟨?_, ?_, ?_⟩
    · intro e r h
      cases e with
      | atom s =>
        simp only [expandC, pure, Option.some.injEq] at h
        subst h
        exact ⟨rfl, rfl⟩
      | num n =>
        simp only [expandC, pure, Option.some.injEq] at h
        subst h
        exact ⟨rfl, rfl⟩
      | add args =>
        simp only [expandC] at h
        cases hE : expandListC fuel args with
        | none => rw [hE] at h; cases h
        | some rs =>
          rw [hE] at h
          simp only [Option.bind_eq_bind, Option.some_bind, pure,
            Option.some.injEq] at h
          subst h
          exact mkAddC_keep rs (ihL args rs hE)
      | mul args =>
        simp only [expandC] at h
        cases hE : expandListC fuel args with
        | none => rw [hE] at h; cases h
        | some rs =>
          rw [hE] at h
          simp only [Option.bind_eq_bind, Option.some_bind, pure,
            Option.some.injEq] at h
          subst h
          exact mkMulC_keep rs (ihL args rs hE)
      | convS args =>
        simp only [expandC] at h
        cases hE : expandListC fuel args with
        | none => rw [hE] at h; cases h
        | some rs =>
          rw [hE] at h
          simp only [Option.bind_eq_bind, Option.some_bind] at h
          exact ihM true rs r (ihL args rs hE) h
      | convV args =>
        simp only [expandC] at h
        cases hE : expandListC fuel args with
        | none => rw [hE] at h; cases h
        | some rs =>
          rw [hE] at h
          simp only [Option.bind_eq_bind, Option.some_bind] at h
          exact ihM false rs r (ihL args rs hE) h
    · intro l rs h
      cases l with
      | nil =>
        simp only [expandListC, pure, Option.some.injEq] at h
        subst h
        intro a ha
        cases ha
      | cons a rest =>
        simp only [expandListC] at h
        cases hA : expandC fuel a with
        | none => rw [hA] at h; cases h
        | some ra =>
          rw [hA] at h
          cases hR : expandListC fuel rest with
          | none => rw [hR] at h; simp at h
          | some rrest =>
            rw [hR] at h
            simp only [Option.bind_eq_bind, Option.some_bind, pure,
              Option.some.injEq] at h
            subst h
            intro b hb
            rcases List.mem_cons.mp hb with rfl | hb'
            · exact ihE a b hA
            · exact ihL rest rrest hR b hb'
    · intro isS args r hargs h
      cases hfind : findRedexC 0 args with
      | none =>
        simp only [methodC, hfind, pure, Option.some.injEq] at h
        subst h
        have hfree := findRedexC_none_elim 0 args hfind
          (fun a ha => (hargs a ha).1)
        have hall : args.all (fun a => ! a.hasConvV) = true := by
          rw [List.all_eq_true]
          intro a ha
          simp [hfree a ha]
        have hcl : isCanonC.canonLC args = true := by
          rw [canonLC_eq_all, List.all_eq_true]
          exact fun a ha => (hargs a ha).2
        cases isS <;> exact ⟨by simpa [mkConvC, isNFC] using hall,
          by simpa [mkConvC, isCanonC] using hcl⟩
      | some red =>
        cases red with
        | radd i x xs =>
          simp only [methodC, hfind] at h
          cases h1 : expandC fuel (mkConvC isS (args.set i x)) with
          | none => rw [h1] at h; cases h
          | some r1 =>
            rw [h1] at h
            cases h2 : expandC fuel (mkConvC isS (args.set i (mkAddC xs))) with
            | none => rw [h2] at h; simp at h
            | some r2 =>
              rw [h2] at h
              simp only [Option.bind_eq_bind, Option.some_bind, pure,
                Option.some.injEq] at h
              subst h
              exact exAddC_keep r1 r2 (ihE _ r1 h1) (ihE _ r2 h2)
        | rconv i vargs =>
          simp only [methodC, hfind] at h
          split at h
          · exact ihE _ r h
          · split at h
            · exact ihE _ r h
            · exact ihE _ r h
        | rmul i margs =>
          simp only [methodC, hfind] at h
          exact ihE _ r h

/-- C4: Idempotence of convolution flattening. For every expression built
from `dConv_s` and `dConv_v` nodes — including nested convolutions, sums
inside an argument, and scalar-multiplied arguments — whenever one
application of the flatten operation (`_eval_expand_func` driven by
`expand(func=True)`, modeled by the fueled `expandC`) terminates with
result `r`, applying the operation to `r` again returns `r` unchanged
(for any fuel sufficient to traverse `r`): the first pass leaves the tree
in flatten normal form and canonical shape, on which the pass is the
identity. -/
theorem C4_flatten_idempotent (fuel fuel2 : ℕ) (e r : CEx)
    (h : expandC fuel e = some r) (h2 : needC r ≤ fuel2) :
    expandC fuel2 r = some r := by
  obtain ⟨hnf, hcanon⟩ := (expandC_nf_all fuel).1 e r h
  exact (expandC_id_all fuel2).1 r hnf hcanon h2

/-- Concrete instance of C4: flattening `dConv_s(A, dConv_v(B, C))` gives
`dConv_s(A, B, C)`, and flattening that result again returns it
unchanged. -/
theorem C4_flatten_idempotent_witness :
    expandC 20 (CEx.convS [.atom "A", .convV [.atom "B", .atom "C"]])
        = some (CEx.convS [.atom "A", .atom "B", .atom "C"])
    ∧ expandC 20 (CEx.convS [.atom "A", .atom "B", .atom "C"])
        = some (CEx.convS [.atom "A", .atom "B", .atom "C"]) :=
  ⟨rfl, C4_flatten_idempotent 20 20
    (CEx.convS [.atom "A", .convV [.atom "B", .atom "C"]])
    (CEx.convS [.atom "A", .atom "B", .atom "C"]) rfl (by decide)⟩

end Solverz
